import Mathlib

/-!
# Verification of the RemoteLock chat reply pipeline

Shallow embedding of the two core transforms of the repository:

* `RL.sanitizeReply` — the sanitizer `sanitizeReply` from `chatHelpers`
  (src/unnamed/part_006, lines 103–145), modelled step by step including the
  exact JavaScript regex semantics of each `replace`/`split`/`match` call.
* `RL.renderMessageText` / `RL.formatTextWithLinks` — the structural parser of
  `ChatMessage` (src/unnamed/part_003, lines 16–201), producing a document
  model (`RL.Block` / `RL.Span`) in place of the React nodes; a `<br>` element
  becomes `Span.brk` / `Block.brk`.

JavaScript strings are modelled as `List Char` (one entry per code point);
the character classes (`\s`, `[A-Za-z]`, word characters for `\b`) follow the
ECMAScript definitions.  Recursions that scan a string are either
state-machine shaped (structural) or carry a fuel argument that the top-level
wrappers instantiate with `length + 1`, which is always sufficient because
every fuel step consumes at least one character.
-/

namespace RL

/-- ECMAScript `\s` (WhiteSpace ∪ LineTerminator): the set used by `\s` in the
source regexes and by `String.prototype.trim`. -/
def isJsWS (c : Char) : Bool :=
  c == ' ' || c == '\t' || c == '\n' || c == '\x0b' || c == '\x0c' || c == '\r' ||
  c == '\u00A0' || c == '\u1680' || (decide ('\u2000' ≤ c) && decide (c ≤ '\u200A')) ||
  c == '\u2028' || c == '\u2029' || c == '\u202F' || c == '\u205F' || c == '\u3000' ||
  c == '\uFEFF'

/-- The class `[ \t\n\r]` used inside the letter-spacing regex of `sanitizeReply`. -/
def isRunWS (c : Char) : Bool :=
  c == ' ' || c == '\t' || c == '\n' || c == '\r'

/-- The class `[A-Za-z]`. -/
def isAsciiLetter (c : Char) : Bool :=
  (decide ('A' ≤ c) && decide (c ≤ 'Z')) || (decide ('a' ≤ c) && decide (c ≤ 'z'))

/-- ECMAScript word character (`\w`), used for the `\b` assertion. -/
def isWordChar (c : Char) : Bool :=
  isAsciiLetter c || c.isDigit || c == '_'

/-- ECMAScript LineTerminator, the characters `.` does not match. -/
def isLineTerm (c : Char) : Bool :=
  c == '\n' || c == '\r' || c == '\u2028' || c == '\u2029'

/-- Drop trailing JS whitespace (the right half of `String.prototype.trim`). -/
def dropTrail (l : List Char) : List Char :=
  (l.reverse.dropWhile isJsWS).reverse

/-- `String.prototype.trim` on a list of characters. -/
def jsTrim (l : List Char) : List Char :=
  dropTrail (l.dropWhile isJsWS)

/-- State machine for `replace(/\*{2,}/g, '')`: a maximal run of two or more
asterisks is deleted, a single asterisk is kept.  The state is the number of
consecutive `*` seen so far. -/
def csAux : List Char → Nat → List Char
  | [], p => if p == 1 then ['*'] else []
  | c :: rest, p =>
    if c == '*' then csAux rest (p + 1)
    else (if p == 1 then ['*'] else []) ++ c :: csAux rest 0

/-- `replace(/\*{2,}/g, '')`. -/
def collapseStars (l : List Char) : List Char := csAux l 0

/-- State machine for `replace(/\s{2,}/g, ' ')`: a maximal run of two or more
JS whitespace characters becomes a single space, a run of one is kept as-is.
The state holds the first character of the pending run and whether the run has
at least two characters. -/
def cwAux : List Char → Option (Char × Bool) → List Char
  | [], none => []
  | [], some (w, more) => if more then [' '] else [w]
  | c :: rest, none =>
    if isJsWS c then cwAux rest (some (c, false)) else c :: cwAux rest none
  | c :: rest, some (w, more) =>
    if isJsWS c then cwAux rest (some (w, true))
    else (if more then [' '] else [w]) ++ c :: cwAux rest none

/-- `replace(/\s{2,}/g, ' ')`. -/
def collapseWs (l : List Char) : List Char := cwAux l none

/-- Prepend a character to the first piece of a split result. -/
def consHead (c : Char) : List (List Char) → List (List Char)
  | [] => [[c]]
  | h :: t => (c :: h) :: t

/-- `split('\n')`. -/
def splitNL : List Char → List (List Char)
  | [] => [[]]
  | c :: rest =>
    if c == '\n' then [] :: splitNL rest else consHead c (splitNL rest)

/-- State machine for `split(/\n{2,}/)`: the current piece is accumulated in
reverse in `cur`, `p` counts the pending run of consecutive newlines. -/
def s2Aux : List Char → List Char → Nat → List (List Char)
  | [], cur, p =>
    if 2 ≤ p then [cur.reverse, []] else [(List.replicate p '\n' ++ cur).reverse]
  | c :: rest, cur, p =>
    if c == '\n' then s2Aux rest cur (p + 1)
    else if 2 ≤ p then cur.reverse :: s2Aux rest [c] 0
    else s2Aux rest (c :: (List.replicate p '\n' ++ cur)) 0

/-- `split(/\n{2,}/)`. -/
def split2NL (l : List Char) : List (List Char) := s2Aux l [] 0

/-- One greedy attempt of the repetition
`(?:[A-Za-z](?:[ \t\n\r]+|$)){n}` at the head of the suffix: returns the
number of complete repetitions, the number of characters they consume
(trailing whitespace of the last repetition included), and the letters in
order.  A repetition is one ASCII letter followed by either a nonempty maximal
run of `[ \t\n\r]` or the end of the string; it is exactly the deterministic
greedy behaviour of the JS engine, since shortening a whitespace run would
place the next letter test on a whitespace character. -/
def reps : Nat → List Char → Nat × Nat × List Char
  | 0, _ => (0, 0, [])
  | _ + 1, [] => (0, 0, [])
  | fuel + 1, c :: rest =>
    if isAsciiLetter c then
      if rest.isEmpty then (1, 1, [c])
      else
        let w := rest.takeWhile isRunWS
        if w.isEmpty then (0, 0, [])
        else
          let r := reps fuel (rest.drop w.length)
          (r.1 + 1, 1 + w.length + r.2.1, c :: r.2.2)
    else (0, 0, [])

/-- Global scan of `replace(/(?:\b(?:[A-Za-z](?:[ \t\n\r]+|$)){3,})/g, join)`:
at every position where the previous character is not a word character and at
least three repetitions match, the matched text is replaced by its letters
(the replacement callback deletes everything but the letters); otherwise the
scan advances one character.  `prevW` records whether the previous character
of the original string is a word character (`\b`). -/
def letterScan : Nat → List Char → Bool → List Char
  | 0, _, _ => []
  | _ + 1, [], _ => []
  | fuel + 1, c :: rest, prevW =>
    if isAsciiLetter c && !prevW then
      let r := reps ((c :: rest).length + 1) (c :: rest)
      if 3 ≤ r.1 then r.2.2 ++ letterScan fuel ((c :: rest).drop r.2.1) false
      else c :: letterScan fuel rest (isWordChar c)
    else c :: letterScan fuel rest (isWordChar c)

/-- The marker alternatives `[*+\-•]` of the sanitizer's list regex. -/
def isMarkerChar (c : Char) : Bool :=
  c == '*' || c == '+' || c == '-' || c == '•'

/-- After the marker of `^\s*([*+\-•]|\d+\.)\s+(.*)$` has matched: require a
nonempty whitespace run (`\s+`, maximal), and the remainder is `(.*)` which
must contain no line terminator for the anchored `$` to be reachable. -/
def needWs (r : List Char) : Option (List Char) :=
  if (r.takeWhile isJsWS).isEmpty then none
  else if (r.dropWhile isJsWS).any isLineTerm then none
  else some (r.dropWhile isJsWS)

/-- `line.match(/^\s*([*+\-•]|\d+\.)\s+(.*)$/)`, returning the second capture
group.  `^\s*` skips the maximal run of leading whitespace (shortening it
would put the marker test on a whitespace character); the digit alternative is
a maximal digit run followed by a literal dot. -/
def markerMatch (l : List Char) : Option (List Char) :=
  match l.dropWhile isJsWS with
  | [] => none
  | c :: rest =>
    if isMarkerChar c then needWs rest
    else if c.isDigit then
      match (c :: rest).drop ((c :: rest).takeWhile Char.isDigit).length with
      | x :: r2 => if x == '.' then needWs r2 else none
      | [] => none
    else none

/-- `/^(?:[A-Za-z](?:[ \t\n\r]+|$)){2,}$/.test(line)`: the greedy repetition
must consume the whole line with at least two repetitions. -/
def isLetterRun2 (l : List Char) : Bool :=
  let r := reps (l.length + 1) l
  decide (2 ≤ r.1) && decide (r.2.1 = l.length)

/-- The `\s?` after the stray bullet: drop at most one whitespace character. -/
def dropOneWS : List Char → List Char
  | [] => []
  | w :: t => if isJsWS w then t else w :: t

/-- `line.replace(/^\s*[\*•]\s?/, '').trim()`: if a `*` or `•` follows the
leading whitespace, the whitespace, the bullet and at most one following
whitespace character are removed; otherwise the replace is a no-op.  In both
cases `.trim()` is applied afterwards. -/
def stripLeadBullet (l : List Char) : List Char :=
  match l.dropWhile isJsWS with
  | c :: rest =>
    if c == '*' || c == '•' then jsTrim (dropOneWS rest)
    else jsTrim l
  | [] => jsTrim l

/-- `/^\s*[-*]{2,}$/.test(l)`: after the maximal run of leading whitespace the
rest of the line must be two or more characters, all `-` or `*`. -/
def isSepLine (l : List Char) : Bool :=
  let r := l.dropWhile isJsWS
  decide (2 ≤ r.length) && r.all (fun c => c == '-' || c == '*')

/-- The per-line normalisation of `sanitizeReply` (the `.map` body): bullet
lines are rewritten as `• ` + trimmed content; otherwise a full line of 2+
single-letter tokens is collapsed by deleting its whitespace; otherwise a
stray leading bullet is stripped. -/
def normLine (l : List Char) : List Char :=
  match markerMatch l with
  | some rest => '•' :: ' ' :: jsTrim rest
  | none =>
    if isLetterRun2 l then l.filter (fun c => !isJsWS c)
    else stripLeadBullet l

/-- The character-level stages of `sanitizeReply` before line splitting:
remove `\r`, remove `\*{2,}` runs, remove every `_`/`~`/backtick, trim,
remove the zero-width characters U+200B/200C/200D/FEFF, collapse
whitespace runs, and apply the letter-spacing repair. -/
def sanStage (text : String) : List Char :=
  let s1 := text.data.filter (fun c => c != '\r')
  let s2 := collapseStars s1
  let s3 := s2.filter (fun c => !(c == '_' || c == '~' || c == Char.ofNat 96))
  let s4 := jsTrim s3
  let s5 := s4.filter (fun c =>
    !(c == '\u200B' || c == '\u200C' || c == '\u200D' || c == '\uFEFF'))
  let s6 := collapseWs s5
  letterScan (s6.length + 1) s6 false

/-- The final list of lines of `sanitizeReply`: split on `\n`, trim each line,
drop empty lines, normalise each line, drop lines that became empty or are
separator artifacts (`[-*]{2,}`). -/
def sanLines (text : String) : List (List Char) :=
  let lines := ((splitNL (sanStage text)).map jsTrim).filter (fun l => !l.isEmpty)
  (lines.map normLine).filter (fun l => !l.isEmpty && !isSepLine l)

/-- `normalized.join('\n')`. -/
def joinNL : List (List Char) → List Char
  | [] => []
  | l :: ls => match ls with
    | [] => l
    | _ :: _ => l ++ '\n' :: joinNL ls

/-- `sanitizeReply` from src/unnamed/part_006 (lines 103–145).  `if (!text)
return ''` maps the empty string to the empty string. -/
def sanitizeReply (text : String) : String :=
  if text = "" then "" else String.mk (joinNL (sanLines text))

/-! ## The structural parser of `ChatMessage` (src/unnamed/part_003) -/

/-- `https?:\/\/` at the head of the suffix: `http`, an optional `s`, then
`://`.  Returns the matched characters and the remainder. -/
def parseScheme : List Char → Option (List Char × List Char)
  | 'h' :: 't' :: 't' :: 'p' :: 's' :: ':' :: '/' :: '/' :: r =>
    some (['h', 't', 't', 'p', 's', ':', '/', '/'], r)
  | 'h' :: 't' :: 't' :: 'p' :: ':' :: '/' :: '/' :: r =>
    some (['h', 't', 't', 'p', ':', '/', '/'], r)
  | _ => none

/-- One attempt of `\[([^\]]+)\]\((https?:\/\/[^\s)]+)\)` at the head of the
suffix.  Returns the full matched text, the bracketed display text and the
captured URL.  `[^\]]+` takes the maximal nonempty run up to the first `]`,
and `[^\s)]+` the maximal nonempty run of characters that are neither
whitespace nor `)` (shortening either run would place the following literal
test on a character that cannot match it). -/
def mdAt (cs : List Char) : Option (List Char × String × String) :=
  match cs with
  | '[' :: r1 =>
    if (r1.takeWhile (fun c => c != ']')).isEmpty then none
    else
      match r1.drop (r1.takeWhile (fun c => c != ']')).length with
      | ']' :: '(' :: r2 =>
        match parseScheme r2 with
        | some (sch, r3) =>
          if (r3.takeWhile (fun c => !isJsWS c && c != ')')).isEmpty then none
          else
            match r3.drop (r3.takeWhile (fun c => !isJsWS c && c != ')')).length with
            | ')' :: _ =>
              some ('[' :: r1.takeWhile (fun c => c != ']') ++
                      ']' :: '(' :: sch ++ r3.takeWhile (fun c => !isJsWS c && c != ')') ++ [')'],
                    String.mk (r1.takeWhile (fun c => c != ']')),
                    String.mk (sch ++ r3.takeWhile (fun c => !isJsWS c && c != ')')))
            | _ => none
        | none => none
      | _ => none
  | _ => none

/-- The first alternative `<(https?:\/\/[^\s>]+)>` of the raw-URL regex. -/
def rawAngleAt (cs : List Char) : Option (List Char × String) :=
  match cs with
  | '<' :: r1 =>
    match parseScheme r1 with
    | some (sch, r2) =>
      if (r2.takeWhile (fun c => !isJsWS c && c != '>')).isEmpty then none
      else
        match r2.drop (r2.takeWhile (fun c => !isJsWS c && c != '>')).length with
        | '>' :: _ =>
          some ('<' :: sch ++ r2.takeWhile (fun c => !isJsWS c && c != '>') ++ ['>'],
                String.mk (sch ++ r2.takeWhile (fun c => !isJsWS c && c != '>')))
        | _ => none
    | none => none
  | _ => none

/-- The second alternative `(https?:\/\/[^\s)]+)` of the raw-URL regex. -/
def rawBareAt (cs : List Char) : Option (List Char × String) :=
  match parseScheme cs with
  | some (sch, r1) =>
    if (r1.takeWhile (fun c => !isJsWS c && c != ')')).isEmpty then none
    else
      some (sch ++ r1.takeWhile (fun c => !isJsWS c && c != ')'),
            String.mk (sch ++ r1.takeWhile (fun c => !isJsWS c && c != ')')))
  | none => none

/-- One attempt of `<(https?:\/\/[^\s>]+)>|(https?:\/\/[^\s)]+)`: the first
alternative is tried first, then the second at the same position. -/
def rawAt (cs : List Char) : Option (List Char × String) :=
  match rawAngleAt cs with
  | some x => some x
  | none => rawBareAt cs

/-- Global regex scan (`while ((match = re.exec(line)) !== null)`): at each
position try the match attempt `A`; on success record (index, length,
payload) and continue after the match, otherwise advance one character. -/
def scanA {α : Type} (A : List Char → Option (List Char × α)) :
    Nat → List Char → Nat → List (Nat × Nat × α)
  | 0, _, _ => []
  | _ + 1, [], _ => []
  | fuel + 1, c :: rest, pos =>
    match A (c :: rest) with
    | some (consumed, a) =>
      (pos, consumed.length, a) ::
        scanA A fuel ((c :: rest).drop consumed.length) (pos + consumed.length)
    | none => scanA A fuel rest (pos + 1)

/-- A recorded link match: start index, matched length, whether it came from
the markdown regex, the bracketed display text (markdown only) and the
captured URL. -/
structure LMatch where
  index : Nat
  len : Nat
  md : Bool
  txt : String
  url : String
deriving DecidableEq

/-- All markdown-link matches of a line, in source order. -/
def mdMatches (line : String) : List LMatch :=
  (scanA mdAt (line.data.length + 1) line.data 0).map
    (fun m => ⟨m.1, m.2.1, true, m.2.2.1, m.2.2.2⟩)

/-- All raw-URL matches of a line, in source order. -/
def rawMatches (line : String) : List LMatch :=
  (scanA rawAt (line.data.length + 1) line.data 0).map
    (fun m => ⟨m.1, m.2.1, false, "", m.2.2⟩)

/-- The overlap test of `formatTextWithLinks`, exactly as written:
`(match.index >= m.index && match.index < m.index + m.len) ||
(m.index >= match.index && m.index < match.index + match.len)`
with `a` the raw candidate and `b` the already recorded match. -/
def jsOverlapB (a b : LMatch) : Bool :=
  (decide (b.index ≤ a.index) && decide (a.index < b.index + b.len)) ||
  (decide (a.index ≤ b.index) && decide (b.index < a.index + a.len))

/-- The raw-URL loop: starting from the markdown matches, append each raw
match unless it overlaps a match recorded so far. -/
def addRaws (mds : List LMatch) (raws : List LMatch) : List LMatch :=
  raws.foldl
    (fun acc r => if acc.any (fun m => jsOverlapB r m) then acc else acc ++ [r])
    mds

/-- `matches.sort((a, b) => a.index - b.index)`. -/
def relIdx (a b : LMatch) : Prop := a.index ≤ b.index

instance : DecidableRel relIdx := fun a b => Nat.decLe a.index b.index

instance : IsTotal LMatch relIdx := ⟨fun a b => Nat.le_total a.index b.index⟩

instance : IsTrans LMatch relIdx := ⟨fun _ _ _ h h' => Nat.le_trans h h'⟩

/-- The final ordered list of retained matches of a line. -/
def matchesOf (line : String) : List LMatch :=
  List.insertionSort relIdx (addRaws (mdMatches line) (rawMatches line))

/-- The `endsWith`-guarded removal of one trailing `.`, `,` or `;`. -/
def stripPunct (p : List Char) : List Char :=
  match p.getLast? with
  | some c => if c == '.' || c == ',' || c == ';' then p.dropLast else p
  | none => p

/-- Punctuation cleanup for raw URLs: `replace(/\)+$/, '')` removes every
trailing `)`, then at most one trailing `.`, `,` or `;` is removed. -/
def stripRawL (u : List Char) : List Char :=
  stripPunct ((u.reverse.dropWhile (fun c => c == ')')).reverse)

/-- `displayUrl.startsWith('http')`. -/
def startsHttp (s : String) : Bool :=
  match s.data with
  | 'h' :: 't' :: 't' :: 'p' :: _ => true
  | _ => false

/-- `displayUrl` after the raw-URL cleanup (markdown URLs are untouched). -/
def displayUrlOf (m : LMatch) : String :=
  if m.md then m.url else String.mk (stripRawL m.url.data)

/-- The anchor's visible text: the bracketed text for markdown matches, the
cleaned URL for raw matches. -/
def displayTextOf (m : LMatch) : String :=
  if m.md then m.txt else displayUrlOf m

/-- `const fullLink = displayUrl.startsWith('http') ? displayUrl :
`https://${displayUrl}``. -/
def fullLinkOf (m : LMatch) : String :=
  let u := displayUrlOf m
  if startsHttp u then u else String.mk ("https://".data ++ u.data)

/-- An inline span of the document model: plain text, a link (anchor), or the
`<br>` the code pushes after each link. -/
inductive Span where
  | text (value : String)
  | link (displayText : String) (href : String)
  | brk
deriving DecidableEq

/-- A part of the walk over a line: an unmatched text piece, a link together
with the source text the match consumed, or a `<br>`. -/
inductive Pc where
  | text (s : String)
  | link (consumed : String) (displayText : String) (href : String)
  | brk
deriving DecidableEq

/-- The walk of `formatTextWithLinks` over the sorted matches: push the text
between `lastIndex` and the match (when nonempty), then the anchor and a
`<br>` (only when `displayUrl` is nonempty), and finally the text after the
last match (when nonempty). -/
def emitParts (cs : List Char) : List LMatch → Nat → List Pc
  | [], last =>
    if last < cs.length then [Pc.text (String.mk (cs.drop last))] else []
  | m :: ms, last =>
    (if last < m.index then
       [Pc.text (String.mk ((cs.drop last).take (m.index - last)))]
     else []) ++
    (if displayUrlOf m ≠ "" then
       [Pc.link (String.mk ((cs.drop m.index).take m.len))
          (displayTextOf m) (fullLinkOf m), Pc.brk]
     else []) ++
    emitParts cs ms (m.index + m.len)

/-- The parts of a line: matches computed, filtered, sorted, then walked. -/
def partsOfLine (line : String) : List Pc :=
  emitParts line.data (matchesOf line) 0

/-- Forget the consumed source text of a part. -/
def partToSpan : Pc → Span
  | Pc.text s => Span.text s
  | Pc.link _ d h => Span.link d h
  | Pc.brk => Span.brk

/-- `formatTextWithLinks` from src/unnamed/part_003 (lines 22–109), returning
the span sequence it renders. -/
def formatTextWithLinks (line : String) : List Span :=
  (partsOfLine line).map partToSpan

/-- The source text covered by the walk: text parts as emitted, link parts by
the source text their match consumed. -/
def partChars : Pc → List Char
  | Pc.text s => s.data
  | Pc.link c _ _ => c.data
  | Pc.brk => []

/-- Concatenation of the text/consumed pieces of the walk. -/
def reassembleParts (ps : List Pc) : List Char :=
  (ps.map partChars).flatten

/-- `/^[*-•]\s+/.test(trimmedLine)`.  Note that inside the character class the
unescaped `-` makes `[*-•]` a RANGE, from `*` (U+002A) to `•` (U+2022). -/
def isUnorderedListItem (t : String) : Bool :=
  match t.data with
  | a :: b :: _ => decide ('*' ≤ a) && decide (a ≤ '•') && isJsWS b
  | _ => false

/-- `/^\d+\.\s+/.test(trimmedLine)`: a maximal nonempty digit run, a dot, and
at least one whitespace character. -/
def isOrderedListItem (t : String) : Bool :=
  !(t.data.takeWhile Char.isDigit).isEmpty &&
    (match t.data.drop (t.data.takeWhile Char.isDigit).length with
     | x :: w :: _ => x == '.' && isJsWS w
     | _ => false)

/-- `trimmedLine.replace(/^([*-•]|\d+\.)\s*/, '').trim()`: the first
alternative is the single-character RANGE `[*-•]`; when it matches (which it
does for every digit as well), one character and the following whitespace run
are removed.  The `\d+\.` alternative is therefore only reachable when the
first character is not in the range, and then it cannot match either; it is
kept for faithfulness. -/
def stripMarker (t : String) : String :=
  match t.data with
  | c :: rest =>
    if decide ('*' ≤ c) && decide (c ≤ '•') then
      String.mk (jsTrim (rest.dropWhile isJsWS))
    else
      let ds := t.data.takeWhile Char.isDigit
      if !ds.isEmpty then
        match t.data.drop ds.length with
        | x :: r2 =>
          if x == '.' then String.mk (jsTrim (r2.dropWhile isJsWS))
          else String.mk (jsTrim t.data)
        | [] => String.mk (jsTrim t.data)
      else String.mk (jsTrim t.data)
  | [] => String.mk (jsTrim t.data)

/-- A block of the document model: a paragraph (`<p>`), a list (`<ol>`/`<ul>`
with one span sequence per `<li>`), or the `<br>` pushed for a blank line. -/
inductive Block where
  | para (spans : List Span)
  | list (ordered : Bool) (items : List (List Span))
  | brk
deriving DecidableEq

/-- Closing the currently open list: `listType === 'ol' ? <ol> : <ul>`. -/
def flushList (lt : Option Bool) (cur : List (List Span)) : Block :=
  Block.list (lt == some true) cur

/-- The per-line walk of `renderMessageText` inside one paragraph group:
`acc` is the emitted block list, `cur` the items of the currently open list,
`lt` its type (`some true` = ordered).  A list line of a different type
closes the open list; a plain line closes any open list and becomes its own
paragraph (or a `<br>` when blank). -/
def procLines : List (List Char) → List Block → List (List Span) → Option Bool → List Block
  | [], acc, cur, lt => if cur.isEmpty then acc else acc ++ [flushList lt cur]
  | line :: rest, acc, cur, lt =>
    let t := String.mk (jsTrim line)
    if isUnorderedListItem t || isOrderedListItem t then
      let nt := isOrderedListItem t
      let s :=
        if !cur.isEmpty && lt != some nt then (acc ++ [flushList lt cur], ([] : List (List Span)))
        else (acc, cur)
      procLines rest s.1 (s.2 ++ [formatTextWithLinks (stripMarker t)]) (some nt)
    else
      let acc2 := if cur.isEmpty then acc else acc ++ [flushList lt cur]
      if t != "" then procLines rest (acc2 ++ [Block.para (formatTextWithLinks t)]) [] none
      else procLines rest (acc2 ++ [Block.brk]) [] none

/-- `renderMessageText` from src/unnamed/part_003 (lines 16–201): `\r` is
removed, the text split on `\n{2,}` into trimmed nonempty paragraph groups,
and each group is split on single newlines and walked; the result is one
block list per paragraph group (the `<div>` per group).  `if (!text) return
null` maps the empty string to the empty document. -/
def renderMessageText (text : String) : List (List Block) :=
  if text = "" then []
  else
    (((split2NL (text.data.filter (fun c => c != '\r'))).map jsTrim).filter
        (fun l => !l.isEmpty)).map
      (fun g => procLines (splitNL g) [] [] none)

/-- The unordered-list-item pattern as the spec states it (`^[*\-•]\s+`, the
three literal characters `*`, `-`, `•`), written from the spec's words for
comparison with `isUnorderedListItem`. -/
def specUnorderedPattern (t : String) : Bool :=
  match t.data with
  | a :: b :: _ => (a == '*' || a == '-' || a == '•') && isJsWS b
  | _ => false

/-- Whether a character list contains two consecutive newline characters
(the pattern `\n{2,}` of the parser's paragraph split). -/
def hasDoubleNL : List Char → Bool
  | [] => false
  | [_] => false
  | a :: b :: rest => (a == '\n' && b == '\n') || hasDoubleNL (b :: rest)

/-! ## Claim theorems: concrete evaluations -/

/-- C1 (code bug): `sanitizeReply` is not idempotent.  On `"*_*"` the
underscore removal (which runs after the `\*{2,}` removal) produces `"**"`;
the stray-bullet rule then strips only one asterisk, so the first pass
returns `"*"`, while a second pass strips the remaining asterisk and returns
`""`.  The spec's idempotence requirement `sanitize(sanitize(x)) ==
sanitize(x)` therefore fails at `x = "*_*"`. -/
theorem c1_sanitize_not_idempotent :
    sanitizeReply (sanitizeReply "*_*") ≠ sanitizeReply "*_*" := by decide

/-- C1 (supporting evaluation at the failing input): the two passes return
`"*"` and `""`. -/
theorem c1_failing_input_values :
    sanitizeReply "*_*" = "*" ∧ sanitizeReply (sanitizeReply "*_*") = "" := by decide

/-- C2 (counterexample): the code's unordered-item test uses the character
RANGE `[*-•]` (U+002A–U+2022), so the line `"a b"` — an ordinary letter
followed by a space — is classified as an unordered list item, while the
spec's literal three-character pattern classifies it plain. -/
theorem c2_cex :
    isUnorderedListItem "a b" = true ∧ specUnorderedPattern "a b" = false := by decide

/-- C3 (counterexample): `sanitize("a b")` is not returned unchanged: the
line-level collapse of the list-marker normalisation step fires on a whole
line of 2 single-letter tokens (its threshold is 2, not 3) and returns
`"ab"`. -/
theorem c3_cex : sanitizeReply "a b" ≠ "a b" := by decide

/-- C3 (amended): the in-text letter-spacing repair does require 3 tokens
(`"R e m o t e"` → `"Remote"`, and the embedded 2-token run in
`"go a b now"` is untouched), but a whole line consisting of exactly 2
single-letter tokens is collapsed by the line normalisation: `sanitize("a b")
= "ab"`. -/
theorem c3_amended :
    sanitizeReply "R e m o t e" = "Remote" ∧
    sanitizeReply "a b" = "ab" ∧
    sanitizeReply "go a b now" = "go a b now" := by decide

/-- C6 (counterexample): consecutive plain lines are NOT accumulated into a
single Paragraph block: each nonempty plain line becomes its own paragraph,
so `"alpha\nbeta"` (no markers, no URLs) yields two Paragraph blocks, not
one. -/
theorem c6_cex :
    renderMessageText "alpha\nbeta" =
      [[Block.para [Span.text "alpha"], Block.para [Span.text "beta"]]] ∧
    ¬ ∃ spans : List Span,
        renderMessageText "alpha\nbeta" = [[Block.para spans]] := by
  refine ⟨by decide, ?_⟩
  rintro ⟨spans, h⟩
  rw [show renderMessageText "alpha\nbeta" =
      [[Block.para [Span.text "alpha"], Block.para [Span.text "beta"]]] from by decide] at h
  simp at h

/-- C7 (counterexample): the sanitizer removes only `\r` and the four
zero-width characters; other control characters survive.  A single TAB
(U+0009, a control character that is not a line separator) inside a word
passes through `sanitizeReply` unchanged. -/
theorem c7_cex :
    sanitizeReply "ab\tcd" = "ab\tcd" ∧
    '\t' ∈ (sanitizeReply "ab\tcd").data ∧
    '\t'.toNat < 32 ∧ '\t' ≠ '\n' := by decide

/-- C8 (counterexample): only ONE trailing `.`/`,`/`;` is stripped from a raw
URL, not all of them: on `"Visit https://example.com/page.."` the link keeps
one trailing period, refuting the claim that all trailing punctuation
characters are stripped. -/
theorem c8_cex :
    formatTextWithLinks "Visit https://example.com/page.." =
      [Span.text "Visit ",
       Span.link "https://example.com/page." "https://example.com/page.", Span.brk] ∧
    formatTextWithLinks "Visit https://example.com/page.." ≠
      [Span.text "Visit ",
       Span.link "https://example.com/page" "https://example.com/page", Span.brk] := by
  decide

/-- C9 (confirmed): both transforms are total Lean functions over all
strings by construction; on empty input `sanitizeReply` returns the empty
string and `renderMessageText` the empty document, and malformed partial
markdown is left as literal text rather than failing. -/
theorem c9_thm :
    sanitizeReply "" = "" ∧
    renderMessageText "" = [] ∧
    formatTextWithLinks "See [broken](http://" =
      [Span.text "See [broken](http://"] := by decide

/-! ## General helper lemmas -/

/-- A list is its `takeWhile` followed by the `drop` of its length. -/
theorem takeWhile_decomp (p : Char → Bool) :
    ∀ l : List Char, l = l.takeWhile p ++ l.drop (l.takeWhile p).length := by
  intro l
  induction l with
  | nil => rfl
  | cons c r ih =>
    by_cases h : p c
    · simp only [List.takeWhile_cons, h, if_true, List.length_cons, List.drop_succ_cons,
        List.cons_append, List.cons.injEq, true_and]
      exact ih
    · simp [List.takeWhile_cons, h]

/-- Dropping a leading all-`)` block commutes past it. -/
theorem dropWhile_paren_replicate (k : Nat) (l : List Char) :
    (List.replicate k ')' ++ l).dropWhile (fun c => c == ')') =
      l.dropWhile (fun c => c == ')') := by
  induction k with
  | zero => simp
  | succ n ih =>
    rw [List.replicate_succ, List.cons_append, List.dropWhile_cons, if_pos (by decide)]
    exact ih

/-- `dropWhile` is the identity when the head does not satisfy the predicate. -/
theorem dropWhile_eq_self_of_head (p : Char → Bool) (l : List Char)
    (h : ∀ c, l.head? = some c → p c = false) : l.dropWhile p = l := by
  cases l with
  | nil => rfl
  | cons c r => simp [List.dropWhile_cons, h c rfl]

/-- The head of a `dropWhile` result fails the predicate. -/
theorem head_dropWhile {p : Char → Bool} : ∀ {l : List Char} {c : Char},
    (l.dropWhile p).head? = some c → p c = false := by
  intro l
  induction l with
  | nil => intro c h; simp at h
  | cons a rest ih =>
    intro c h
    by_cases ha : p a = true
    · rw [List.dropWhile_cons, if_pos ha] at h
      exact ih h
    · rw [List.dropWhile_cons, if_neg ha] at h
      injection h with h
      subst h
      simpa using ha

/-- `takeWhile Char.isDigit` stops exactly at the dot after a digit run. -/
theorem takeWhile_digit_run (ds r : List Char) (hdig : ∀ c ∈ ds, c.isDigit = true) :
    (ds ++ '.' :: r).takeWhile Char.isDigit = ds := by
  induction ds with
  | nil => simp
  | cons d dd ih =>
    have hd : d.isDigit = true := hdig d (List.mem_cons_self d dd)
    simp only [List.cons_append, List.takeWhile_cons, hd, if_true, List.cons.injEq, true_and]
    exact ih (fun c hc => hdig c (List.mem_cons_of_mem d hc))

/-! ## C2: line classification -/

/-- C2 (amended): the unordered-item test accepts exactly the lines whose
first character lies in the code-point range U+002A (`*`) to U+2022 (`•`)
and whose second character is whitespace — letters and digits included — and
the ordered-item test accepts exactly a maximal nonempty digit run followed
by `.` and a whitespace character; every other line is plain. -/
theorem c2_amended (t : String) :
    (isUnorderedListItem t = true ↔
      ∃ a b rest, t.data = a :: b :: rest ∧ '*' ≤ a ∧ a ≤ '•' ∧ isJsWS b = true) ∧
    (isOrderedListItem t = true ↔
      ∃ ds w rest, t.data = ds ++ '.' :: w :: rest ∧ ds ≠ [] ∧
        (∀ c ∈ ds, c.isDigit = true) ∧ isJsWS w = true) := by
  constructor
  · unfold isUnorderedListItem
    cases h : t.data with
    | nil => simp
    | cons a l =>
      cases l with
      | nil => simp
      | cons b rest =>
        simp only [Bool.and_eq_true, decide_eq_true_eq]
        constructor
        · rintro ⟨⟨h1, h2⟩, h3⟩; exact ⟨a, b, rest, rfl, h1, h2, h3⟩
        · rintro ⟨a', b', rest', he, h1, h2, h3⟩
          obtain ⟨rfl, rfl, rfl⟩ : a' = a ∧ b' = b ∧ rest' = rest := by
            injection he with e1 e2; injection e2 with e3 e4; exact ⟨e1.symm, e3.symm, e4.symm⟩
          exact ⟨⟨h1, h2⟩, h3⟩
  · unfold isOrderedListItem
    constructor
    · intro h
      simp only [Bool.and_eq_true, Bool.not_eq_true'] at h
      obtain ⟨hne, hm⟩ := h
      have hne' : t.data.takeWhile Char.isDigit ≠ [] := by
        intro hnil; rw [hnil] at hne; simp at hne
      revert hm
      cases hd : t.data.drop (t.data.takeWhile Char.isDigit).length with
      | nil => intro hm; simp at hm
      | cons x l =>
        cases l with
        | nil => intro hm; simp at hm
        | cons w rest =>
          intro hm
          simp only [Bool.and_eq_true, beq_iff_eq] at hm
          obtain ⟨hx, hw⟩ := hm
          subst hx
          refine ⟨t.data.takeWhile Char.isDigit, w, rest, ?_, hne',
            fun c hc => List.mem_takeWhile_imp hc, hw⟩
          conv_lhs => rw [takeWhile_decomp Char.isDigit t.data]
          rw [hd]
    · rintro ⟨ds, w, rest, he, hne, hdig, hw⟩
      have htw : t.data.takeWhile Char.isDigit = ds := by
        rw [he]; exact takeWhile_digit_run ds (w :: rest) hdig
      have hdr : t.data.drop (t.data.takeWhile Char.isDigit).length = '.' :: w :: rest := by
        rw [htw, he, List.drop_left]
      rw [hdr]
      have hne2 : t.data.takeWhile Char.isDigit ≠ [] := htw ▸ hne
      simp [hne2, hw, List.isEmpty_iff]

/-! ## C8: raw-URL punctuation stripping -/

/-- C8 (amended): raw-URL cleanup strips the whole trailing run of `)` and
then at most ONE trailing `.`, `,` or `;`: the spec's single-period example
yields a clean href, every trailing `)` is removed, a single trailing period
is removed, but of two trailing periods one survives. -/
theorem c8_amended :
    (formatTextWithLinks "Visit https://example.com/page." =
      [Span.text "Visit ",
       Span.link "https://example.com/page" "https://example.com/page", Span.brk]) ∧
    ∀ (base : List Char) (k : Nat) (c : Char),
      base.getLast? = some c → c ≠ ')' → c ≠ '.' → c ≠ ',' → c ≠ ';' →
      stripRawL (base ++ List.replicate k ')') = base ∧
      stripRawL (base ++ ['.']) = base ∧
      stripRawL (base ++ ['.', '.']) = base ++ ['.'] := by
  refine ⟨by decide, ?_⟩
  intro base k c hlast hp hd hcm hsc
  have hpunct : stripPunct base = base := by
    unfold stripPunct
    rw [hlast]
    simp [hd, hcm, hsc]
  have hdot : ∀ l : List Char, stripPunct (l ++ ['.']) = l := by
    intro l
    unfold stripPunct
    rw [List.getLast?_concat]
    simp [List.dropLast_concat]
  have hbase : (base.reverse.dropWhile (fun c => c == ')')).reverse = base := by
    rw [dropWhile_eq_self_of_head, List.reverse_reverse]
    intro x hx
    rw [List.head?_reverse, hlast] at hx
    injection hx with hx
    subst hx
    simp [hp]
  refine ⟨?_, ?_, ?_⟩
  · unfold stripRawL
    rw [List.reverse_append, List.reverse_replicate, dropWhile_paren_replicate, hbase, hpunct]
  · unfold stripRawL
    have h1 : (base ++ ['.']).reverse.dropWhile (fun c => c == ')') = (base ++ ['.']).reverse := by
      apply dropWhile_eq_self_of_head
      intro x hx
      rw [List.head?_reverse, List.getLast?_concat] at hx
      injection hx with hx; subst hx; decide
    rw [h1, List.reverse_reverse, hdot]
  · unfold stripRawL
    have h2 : base ++ ['.', '.'] = (base ++ ['.']) ++ ['.'] := by simp
    have h1 : (base ++ ['.', '.']).reverse.dropWhile (fun c => c == ')') =
        (base ++ ['.', '.']).reverse := by
      apply dropWhile_eq_self_of_head
      intro x hx
      rw [List.head?_reverse, h2, List.getLast?_concat] at hx
      injection hx with hx; subst hx; decide
    rw [h1, List.reverse_reverse, h2, hdot]

/-- C8 witness: the amended statement instantiated at a concrete base URL. -/
theorem c8_witness :
    stripRawL ("https://x".data ++ List.replicate 2 ')') = "https://x".data ∧
    stripRawL ("https://x".data ++ ['.']) = "https://x".data ∧
    stripRawL ("https://x".data ++ ['.', '.']) = "https://x".data ++ ['.'] :=
  c8_amended.2 "https://x".data 2 'x' (by decide) (by decide) (by decide) (by decide) (by decide)

/-! ## Scanner lemmas for link extraction (C4, C5) -/

/-- A successful scheme parse splits the input and starts with `http`. -/
theorem parseScheme_eq {cs sch r : List Char} (h : parseScheme cs = some (sch, r)) :
    cs = sch ++ r ∧ ∃ s, sch = 'h' :: 't' :: 't' :: 'p' :: s := by
  unfold parseScheme at h
  split at h <;>
    first
      | (simp only [Option.some.injEq, Prod.mk.injEq] at h
         obtain ⟨h1, h2⟩ := h
         subst h1; subst h2
         exact ⟨rfl, ⟨_, rfl⟩⟩)
      | exact absurd h (by simp)

/-- A successful markdown-link attempt consumes a nonempty prefix of the
input, and its captured URL starts with `http`. -/
theorem mdAt_spec {cs con : List Char} {t u : String} (h : mdAt cs = some (con, t, u)) :
    (∃ rest, cs = con ++ rest) ∧ con ≠ [] ∧ ∃ r, u.data = 'h' :: 't' :: 't' :: 'p' :: r := by
  unfold mdAt at h
  split at h
  case h_2 => exact absurd h (by simp)
  case h_1 r1 =>
    split at h
    case isTrue => exact absurd h (by simp)
    case isFalse ht =>
      split at h
      case h_2 => exact absurd h (by simp)
      case h_1 r2 heq =>
        split at h
        case h_2 => exact absurd h (by simp)
        case h_1 sch r3 hps =>
          obtain ⟨hr2, s, hsch⟩ := parseScheme_eq hps
          split at h
          case isTrue => exact absurd h (by simp)
          case isFalse hrun =>
            split at h
            case h_2 => exact absurd h (by simp)
            case h_1 rest' heq2 =>
              simp only [Option.some.injEq, Prod.mk.injEq] at h
              obtain ⟨h1, h2, h3⟩ := h
              subst h1; subst h2; subst h3
              refine ⟨⟨rest', ?_⟩, by simp,
                ⟨s ++ r3.takeWhile (fun c => !isJsWS c && c != ')'), by simp [hsch]⟩⟩
              have hd1 : r1 = r1.takeWhile (fun c => c != ']') ++ ']' :: '(' :: r2 := by
                conv_lhs => rw [takeWhile_decomp (fun c => c != ']') r1]
                rw [heq]
              have hd2 : r3 = r3.takeWhile (fun c => !isJsWS c && c != ')') ++ ')' :: rest' := by
                conv_lhs => rw [takeWhile_decomp (fun c => !isJsWS c && c != ')') r3]
                rw [heq2]
              have e2 : r2 =
                  sch ++ (r3.takeWhile (fun c => !isJsWS c && c != ')') ++ ')' :: rest') :=
                hr2.trans (congrArg (fun x => sch ++ x) hd2)
              conv_lhs => rw [hd1]
              rw [e2]
              simp

/-- A successful angle-bracket raw attempt consumes a nonempty prefix, and
its captured URL starts with `http`. -/
theorem rawAngleAt_spec {cs con : List Char} {u : String}
    (h : rawAngleAt cs = some (con, u)) :
    (∃ rest, cs = con ++ rest) ∧ con ≠ [] ∧ ∃ r, u.data = 'h' :: 't' :: 't' :: 'p' :: r := by
  unfold rawAngleAt at h
  split at h
  case h_2 => exact absurd h (by simp)
  case h_1 r1 =>
    split at h
    case h_2 => exact absurd h (by simp)
    case h_1 sch r2 hps =>
      obtain ⟨hr1, s, hsch⟩ := parseScheme_eq hps
      split at h
      case isTrue => exact absurd h (by simp)
      case isFalse hrun =>
        split at h
        case h_2 => exact absurd h (by simp)
        case h_1 rest' heq2 =>
          simp only [Option.some.injEq, Prod.mk.injEq] at h
          obtain ⟨h1, h2⟩ := h
          subst h1; subst h2
          refine ⟨⟨rest', ?_⟩, by simp,
            ⟨s ++ r2.takeWhile (fun c => !isJsWS c && c != '>'), by simp [hsch]⟩⟩
          have hd2 : r2 = r2.takeWhile (fun c => !isJsWS c && c != '>') ++ '>' :: rest' := by
            conv_lhs => rw [takeWhile_decomp (fun c => !isJsWS c && c != '>') r2]
            rw [heq2]
          simp only [List.cons_append, List.append_assoc]
          rw [hr1]
          conv_lhs => rw [hd2]
          simp

/-- A successful bare raw-URL attempt consumes a nonempty prefix, and its
captured URL starts with `http`. -/
theorem rawBareAt_spec {cs con : List Char} {u : String}
    (h : rawBareAt cs = some (con, u)) :
    (∃ rest, cs = con ++ rest) ∧ con ≠ [] ∧ ∃ r, u.data = 'h' :: 't' :: 't' :: 'p' :: r := by
  unfold rawBareAt at h
  split at h
  case h_2 => exact absurd h (by simp)
  case h_1 sch r1 hps =>
    obtain ⟨hr1, s, hsch⟩ := parseScheme_eq hps
    split at h
    case isTrue => exact absurd h (by simp)
    case isFalse hrun =>
      simp only [Option.some.injEq, Prod.mk.injEq] at h
      obtain ⟨h1, h2⟩ := h
      subst h1; subst h2
      refine ⟨⟨r1.drop (r1.takeWhile (fun c => !isJsWS c && c != ')')).length, ?_⟩,
        by simp [hsch], ⟨s ++ r1.takeWhile (fun c => !isJsWS c && c != ')'), by simp [hsch]⟩⟩
      rw [hr1]
      conv_lhs => rw [takeWhile_decomp (fun c => !isJsWS c && c != ')') r1]
      simp

/-- The combined raw-URL attempt consumes a nonempty prefix, and its captured
URL starts with `http`. -/
theorem rawAt_spec {cs con : List Char} {u : String} (h : rawAt cs = some (con, u)) :
    (∃ rest, cs = con ++ rest) ∧ con ≠ [] ∧ ∃ r, u.data = 'h' :: 't' :: 't' :: 'p' :: r := by
  unfold rawAt at h
  cases ha : rawAngleAt cs with
  | some x => rw [ha] at h; injection h with h1; subst h1; exact rawAngleAt_spec ha
  | none => rw [ha] at h; exact rawBareAt_spec h

/-- Every match the generic scanner emits starts at or after the scan
position, fits inside the scanned suffix, has positive length, and its
payload comes from a successful attempt whose consumed text has the match's
length. -/
theorem scanA_mem {α : Type} (A : List Char → Option (List Char × α))
    (hA : ∀ {cs con : List Char} {a : α},
      A cs = some (con, a) → (∃ rest, cs = con ++ rest) ∧ con ≠ []) :
    ∀ (fuel : Nat) (cs : List Char) (pos : Nat),
      ∀ m ∈ scanA A fuel cs pos,
        pos ≤ m.1 ∧ m.1 + m.2.1 ≤ pos + cs.length ∧ 1 ≤ m.2.1 ∧
        ∃ cs' con, A cs' = some (con, m.2.2) ∧ con.length = m.2.1 := by
  intro fuel
  induction fuel with
  | zero => intro cs pos m hm; simp [scanA] at hm
  | succ n ih =>
    intro cs pos m hm
    cases cs with
    | nil => simp [scanA] at hm
    | cons c rest =>
      cases hAt : A (c :: rest) with
      | some p =>
        obtain ⟨con, a⟩ := p
        simp only [scanA, hAt] at hm
        obtain ⟨⟨r0, hr0⟩, hcon⟩ := hA hAt
        have hlen : con.length ≤ (c :: rest).length := by rw [hr0]; simp
        have hposlen : 1 ≤ con.length := List.length_pos.mpr hcon
        rcases List.mem_cons.mp hm with h | h
        · subst h
          exact ⟨Nat.le_refl _, by simp only [List.length_cons] at hlen ⊢; omega,
            hposlen, ⟨c :: rest, con, hAt, rfl⟩⟩
        · obtain ⟨h1, h2, h3, h4⟩ := ih _ _ _ h
          refine ⟨by omega, ?_, h3, h4⟩
          rw [List.length_drop] at h2
          omega
      | none =>
        simp only [scanA, hAt] at hm
        obtain ⟨h1, h2, h3, h4⟩ := ih rest (pos + 1) m hm
        refine ⟨by omega, ?_, h3, h4⟩
        simp only [List.length_cons]
        omega

/-- The matches of the generic scanner are pairwise disjoint in source order:
each ends at or before the next begins. -/
theorem scanA_pairwise {α : Type} (A : List Char → Option (List Char × α))
    (hA : ∀ {cs con : List Char} {a : α},
      A cs = some (con, a) → (∃ rest, cs = con ++ rest) ∧ con ≠ []) :
    ∀ (fuel : Nat) (cs : List Char) (pos : Nat),
      List.Pairwise (fun a b => a.1 + a.2.1 ≤ b.1) (scanA A fuel cs pos) := by
  intro fuel
  induction fuel with
  | zero => intro cs pos; simp [scanA]
  | succ n ih =>
    intro cs pos
    cases cs with
    | nil => simp [scanA]
    | cons c rest =>
      cases hAt : A (c :: rest) with
      | some p =>
        obtain ⟨con, a⟩ := p
        simp only [scanA, hAt]
        refine List.Pairwise.cons ?_ (ih _ _)
        intro m hm
        have := (scanA_mem A hA n _ _ m hm).1
        simpa using this
      | none =>
        simp only [scanA, hAt]
        exact ih rest (pos + 1)

/-- `mdAt` attempts consume a nonempty prefix (payload-form adapter). -/
theorem mdAt_hA : ∀ {cs con : List Char} {a : String × String},
    mdAt cs = some (con, a) → (∃ rest, cs = con ++ rest) ∧ con ≠ [] := by
  intro cs con a h
  obtain ⟨t, u⟩ := a
  exact ⟨(mdAt_spec h).1, (mdAt_spec h).2.1⟩

/-- `rawAt` attempts consume a nonempty prefix (payload-form adapter). -/
theorem rawAt_hA : ∀ {cs con : List Char} {a : String},
    rawAt cs = some (con, a) → (∃ rest, cs = con ++ rest) ∧ con ≠ [] := by
  intro cs con a h
  exact ⟨(rawAt_spec h).1, (rawAt_spec h).2.1⟩

/-- The markdown matches of a line are flagged `md`, fit inside the line,
have positive length, have an `http`-prefixed URL, and are pairwise disjoint
in ascending source order. -/
theorem mdMatches_facts (line : String) :
    (∀ m ∈ mdMatches line, m.md = true ∧ m.index + m.len ≤ line.data.length ∧ 1 ≤ m.len ∧
      ∃ r, m.url.data = 'h' :: 't' :: 't' :: 'p' :: r) ∧
    List.Pairwise (fun a b => a.index + a.len ≤ b.index) (mdMatches line) := by
  constructor
  · intro m hm
    obtain ⟨x, hx, rfl⟩ := List.mem_map.mp hm
    obtain ⟨h1, h2, h3, cs', con, hat, hlen⟩ := scanA_mem mdAt mdAt_hA _ _ _ x hx
    rcases hp : x.2.2 with ⟨t, u⟩
    rw [hp] at hat
    refine ⟨rfl, by simpa using h2, h3, ?_⟩
    obtain ⟨-, -, r, hr⟩ := mdAt_spec hat
    exact ⟨r, by simp [hp, hr]⟩
  · exact List.pairwise_map.mpr (scanA_pairwise mdAt mdAt_hA _ _ _)

/-- The raw matches of a line are flagged raw, fit inside the line, have
positive length, have an `http`-prefixed URL, and are pairwise disjoint in
ascending source order. -/
theorem rawMatches_facts (line : String) :
    (∀ m ∈ rawMatches line, m.md = false ∧ m.index + m.len ≤ line.data.length ∧ 1 ≤ m.len ∧
      ∃ r, m.url.data = 'h' :: 't' :: 't' :: 'p' :: r) ∧
    List.Pairwise (fun a b => a.index + a.len ≤ b.index) (rawMatches line) := by
  constructor
  · intro m hm
    obtain ⟨x, hx, rfl⟩ := List.mem_map.mp hm
    obtain ⟨h1, h2, h3, cs', con, hat, hlen⟩ := scanA_mem rawAt rawAt_hA _ _ _ x hx
    refine ⟨rfl, by simpa using h2, h3, ?_⟩
    obtain ⟨-, -, r, hr⟩ := rawAt_spec hat
    exact ⟨r, hr⟩
  · exact List.pairwise_map.mpr (scanA_pairwise rawAt rawAt_hA _ _ _)

/-- The JS overlap test is symmetric. -/
theorem jsOverlapB_symm (a b : LMatch) : jsOverlapB a b = jsOverlapB b a :=
  Bool.or_comm _ _

/-- Matches in disjoint ascending position do not overlap (the earlier match
must be nonempty: a zero-length match starting where the next begins would
still count as overlapping for the JS test). -/
theorem nov_of_disj {a b : LMatch} (hlen : 1 ≤ a.len) (h : a.index + a.len ≤ b.index) :
    jsOverlapB a b = false := by
  simp only [jsOverlapB, Bool.or_eq_false_iff, Bool.and_eq_false_iff,
    decide_eq_false_iff_not, Nat.not_le, Nat.not_lt]
  omega

/-- Non-overlap plus index order gives disjointness. -/
theorem le_of_nov {a b : LMatch} (hle : a.index ≤ b.index)
    (h : jsOverlapB a b = false) : a.index + a.len ≤ b.index := by
  simp only [jsOverlapB, Bool.or_eq_false_iff, Bool.and_eq_false_iff,
    decide_eq_false_iff_not, Nat.not_le, Nat.not_lt] at h
  omega

/-- Every retained match is a markdown match or a raw match that overlaps no
markdown match; this is the foldl of the raw-URL loop. -/
theorem addRaws_mem (mds raws : List LMatch) :
    ∀ x ∈ addRaws mds raws,
      x ∈ mds ∨ (x ∈ raws ∧ ∀ m ∈ mds, jsOverlapB x m = false) := by
  suffices h : ∀ (rs acc : List LMatch), (∀ m ∈ mds, m ∈ acc) →
      ∀ x ∈ rs.foldl
        (fun acc r => if acc.any (fun m => jsOverlapB r m) then acc else acc ++ [r]) acc,
        x ∈ acc ∨ (x ∈ rs ∧ ∀ m ∈ mds, jsOverlapB x m = false) by
    intro x hx
    exact h raws mds (fun m hm => hm) x hx
  intro rs
  induction rs with
  | nil => intro acc hsub x hx; exact Or.inl hx
  | cons r rest ih =>
    intro acc hsub x hx
    simp only [List.foldl_cons] at hx
    by_cases hc : acc.any (fun m => jsOverlapB r m) = true
    · rw [if_pos hc] at hx
      rcases ih acc hsub x hx with h | ⟨h1, h2⟩
      · exact Or.inl h
      · exact Or.inr ⟨List.mem_cons_of_mem r h1, h2⟩
    · rw [if_neg hc] at hx
      have hsub' : ∀ m ∈ mds, m ∈ acc ++ [r] :=
        fun m hm => List.mem_append_left _ (hsub m hm)
      rcases ih (acc ++ [r]) hsub' x hx with h | ⟨h1, h2⟩
      · rcases List.mem_append.mp h with h' | h'
        · exact Or.inl h'
        · have hxr : x = r := by simpa using h'
          subst hxr
          refine Or.inr ⟨List.mem_cons_self _ _, fun m hm => ?_⟩
          by_contra hov
          exact hc (List.any_eq_true.mpr
            ⟨m, hsub m hm, by simpa using Bool.not_eq_false _ |>.mp hov⟩)
      · exact Or.inr ⟨List.mem_cons_of_mem r h1, h2⟩

/-- The raw-URL loop keeps the accumulated matches pairwise non-overlapping. -/
theorem addRaws_pairwise (mds raws : List LMatch)
    (hmds : List.Pairwise
      (fun a b => jsOverlapB a b = false ∧ jsOverlapB b a = false) mds) :
    List.Pairwise (fun a b => jsOverlapB a b = false ∧ jsOverlapB b a = false)
      (addRaws mds raws) := by
  suffices h : ∀ (rs acc : List LMatch),
      List.Pairwise (fun a b => jsOverlapB a b = false ∧ jsOverlapB b a = false) acc →
      List.Pairwise (fun a b => jsOverlapB a b = false ∧ jsOverlapB b a = false)
        (rs.foldl
          (fun acc r => if acc.any (fun m => jsOverlapB r m) then acc else acc ++ [r]) acc) from
    h raws mds hmds
  intro rs
  induction rs with
  | nil => intro acc hacc; exact hacc
  | cons r rest ih =>
    intro acc hacc
    simp only [List.foldl_cons]
    by_cases hc : acc.any (fun m => jsOverlapB r m) = true
    · rw [if_pos hc]; exact ih acc hacc
    · rw [if_neg hc]
      refine ih (acc ++ [r]) ?_
      rw [List.pairwise_append]
      refine ⟨hacc, List.pairwise_singleton _ _, fun a ha b hb => ?_⟩
      have hb' : b = r := by simpa using hb
      subst hb'
      have hnov : jsOverlapB b a = false := by
        by_contra hov
        exact hc (List.any_eq_true.mpr ⟨a, ha, Bool.not_eq_false _ |>.mp hov⟩)
      exact ⟨(jsOverlapB_symm a b) ▸ hnov, hnov⟩

/-- The cleaned display URL of a raw match with an `http`-prefixed captured
URL is nonempty. -/
theorem stripRawL_ne_nil {u r : List Char} (h : u = 'h' :: r) : stripRawL u ≠ [] := by
  unfold stripRawL
  have hsplit := List.takeWhile_append_dropWhile (fun c => c == ')') u.reverse
  have hu : u = (u.reverse.dropWhile (fun c => c == ')')).reverse ++
      (u.reverse.takeWhile (fun c => c == ')')).reverse := by
    have h2 := congrArg List.reverse hsplit
    simp only [List.reverse_append, List.reverse_reverse] at h2
    exact h2.symm
  have hne : (u.reverse.dropWhile (fun c => c == ')')).reverse ≠ [] := by
    intro hnil
    rw [hnil, List.nil_append] at hu
    have hmem : 'h' ∈ u := by rw [h]; exact List.mem_cons_self _ _
    rw [hu] at hmem
    have := List.mem_takeWhile_imp (List.mem_reverse.mp hmem)
    simp at this
  obtain ⟨a, q, hq⟩ := List.exists_cons_of_ne_nil hne
  have ha : a = 'h' := by
    rw [hq] at hu
    rw [h] at hu
    injection hu with h1 _
    exact h1.symm
  subst ha
  rw [hq]
  unfold stripPunct
  cases hl : ('h' :: q).getLast? with
  | none => simp
  | some c =>
    show (if (c == '.' || c == ',' || c == ';') = true
          then ('h' :: q).dropLast else 'h' :: q) ≠ []
    by_cases hpunct : (c == '.' || c == ',' || c == ';') = true
    · rw [if_pos hpunct]
      cases q with
      | nil =>
        simp only [List.getLast?_singleton, Option.some.injEq] at hl
        subst hl
        simp at hpunct
      | cons b bs => simp
    · rw [if_neg hpunct]; simp

/-- The full invariant of the retained, sorted match list of a line: every
match fits in the line, is nonempty, yields a nonempty display URL, and is a
markdown match or a raw match overlapping no markdown match; the list is
sorted by start index and pairwise non-overlapping. -/
theorem matchesOf_facts (line : String) :
    (∀ m ∈ matchesOf line,
        m.index + m.len ≤ line.data.length ∧ 1 ≤ m.len ∧ displayUrlOf m ≠ "" ∧
        (m ∈ mdMatches line ∨
          (m ∈ rawMatches line ∧ ∀ m' ∈ mdMatches line, jsOverlapB m m' = false))) ∧
    List.Sorted relIdx (matchesOf line) ∧
    List.Pairwise (fun a b => jsOverlapB a b = false ∧ jsOverlapB b a = false)
      (matchesOf line) := by
  have hperm := List.perm_insertionSort relIdx (addRaws (mdMatches line) (rawMatches line))
  have hmdf := mdMatches_facts line
  have hrwf := rawMatches_facts line
  refine ⟨?_, List.sorted_insertionSort relIdx _, ?_⟩
  · intro m hm
    have hm' : m ∈ addRaws (mdMatches line) (rawMatches line) := hperm.mem_iff.mp hm
    rcases addRaws_mem _ _ m hm' with hmd | ⟨hraw, hnov⟩
    · obtain ⟨hflag, hb, hl, r, hr⟩ := hmdf.1 m hmd
      refine ⟨hb, hl, ?_, Or.inl hmd⟩
      have hd : displayUrlOf m = m.url := by simp [displayUrlOf, hflag]
      rw [hd]
      intro he
      have hbad := congrArg String.data he
      rw [hr] at hbad
      simp at hbad
    · obtain ⟨hflag, hb, hl, r, hr⟩ := hrwf.1 m hraw
      refine ⟨hb, hl, ?_, Or.inr ⟨hraw, hnov⟩⟩
      have hd : displayUrlOf m = String.mk (stripRawL m.url.data) := by
        simp [displayUrlOf, hflag]
      rw [hd]
      intro he
      exact stripRawL_ne_nil hr (congrArg String.data he)
  · have hsymm : ∀ {x y : LMatch},
        (jsOverlapB x y = false ∧ jsOverlapB y x = false) →
        (jsOverlapB y x = false ∧ jsOverlapB x y = false) := fun h => ⟨h.2, h.1⟩
    refine (hperm.pairwise_iff hsymm).mpr ?_
    apply addRaws_pairwise
    refine List.Pairwise.imp_of_mem ?_ hmdf.2
    intro a b ha hb hdisj
    have hal : 1 ≤ a.len := (hmdf.1 a ha).2.2.1
    exact ⟨nov_of_disj hal hdisj, (jsOverlapB_symm b a).trans (nov_of_disj hal hdisj)⟩

/-- The sorted retained matches are disjoint in order (weak and strict). -/
theorem matchesOf_chain (line : String) :
    List.Chain' (fun a b => a.index + a.len ≤ b.index) (matchesOf line) ∧
    List.Chain' (fun a b => a.index < b.index) (matchesOf line) := by
  obtain ⟨hmem, hsorted, hpd⟩ := matchesOf_facts line
  have hsp : List.Pairwise
      (fun a b => relIdx a b ∧ (jsOverlapB a b = false ∧ jsOverlapB b a = false))
      (matchesOf line) :=
    List.Pairwise.and hsorted hpd
  constructor
  · refine List.Pairwise.chain' (List.Pairwise.imp_of_mem ?_ hsp)
    rintro a b ha hb ⟨hle, hnov, -⟩
    exact le_of_nov hle hnov
  · refine List.Pairwise.chain' (List.Pairwise.imp_of_mem ?_ hsp)
    rintro a b ha hb ⟨hle, hnov, -⟩
    have h1 : 1 ≤ a.len := (hmem a ha).2.1
    have h2 := le_of_nov hle hnov
    omega

/-- The walk of `formatTextWithLinks` covers the line: concatenating the
emitted text pieces and the source text consumed by each match reproduces the
suffix being walked. -/
theorem emit_reassemble (cs : List Char) :
    ∀ (ms : List LMatch) (last : Nat),
      (∀ m ∈ ms, m.index + m.len ≤ cs.length ∧ displayUrlOf m ≠ "") →
      List.Chain' (fun a b => a.index + a.len ≤ b.index) ms →
      (∀ m, ms.head? = some m → last ≤ m.index) →
      reassembleParts (emitParts cs ms last) = cs.drop last := by
  intro ms
  induction ms with
  | nil =>
    intro last hmem hchain hhead
    simp only [emitParts]
    by_cases h : last < cs.length
    · rw [if_pos h]; simp [reassembleParts, partChars]
    · rw [if_neg h]
      have : cs.drop last = [] := List.drop_eq_nil_of_le (Nat.le_of_not_lt h)
      simp [reassembleParts, this]
  | cons m ms ih =>
    intro last hmem hchain hhead
    have hm := hmem m (List.mem_cons_self _ _)
    have hlast : last ≤ m.index := hhead m rfl
    obtain ⟨hrel, hctail⟩ := List.chain'_cons'.mp hchain
    have htail := ih (m.index + m.len)
      (fun x hx => hmem x (List.mem_cons_of_mem _ hx)) hctail
      (fun m' hm' => hrel m' (by rw [hm']; rfl))
    have hra : ∀ a b : List Pc,
        reassembleParts (a ++ b) = reassembleParts a ++ reassembleParts b := by
      intro a b; simp [reassembleParts]
    simp only [emitParts, if_pos hm.2]
    rw [hra, hra, htail]
    have e1 : (cs.drop last).drop (m.index - last) = cs.drop m.index := by
      rw [List.drop_drop]
      congr 1
      omega
    have e2 : (cs.drop m.index).drop m.len = cs.drop (m.index + m.len) := by
      rw [List.drop_drop]
    have key2 : (cs.drop m.index).take m.len ++ cs.drop (m.index + m.len) =
        cs.drop m.index := by
      rw [← e2]; exact List.take_append_drop _ _
    have key1 : (cs.drop last).take (m.index - last) ++ cs.drop m.index = cs.drop last := by
      rw [← e1]; exact List.take_append_drop _ _
    by_cases hgap : last < m.index
    · rw [if_pos hgap]
      simp only [reassembleParts, List.map_cons, List.map_nil, List.flatten_cons,
        List.flatten_nil, partChars, List.append_nil]
      rw [List.append_assoc, key2]
      exact key1
    · rw [if_neg hgap]
      have hlz : m.index - last = 0 := by omega
      have hle : last = m.index := by omega
      simp only [reassembleParts, List.map_cons, List.map_nil, List.flatten_cons,
        List.flatten_nil, partChars, List.append_nil, List.map_nil, List.flatten_nil,
        List.nil_append]
      rw [key2, hle]

/-- C5 (confirmed): for every line, concatenating the `value` of the emitted
text parts and the source text consumed by each link match, in order,
reproduces the source line exactly: no character is silently dropped by the
walk, characters are only re-grouped into spans. -/
theorem c5_thm (line : String) : reassembleParts (partsOfLine line) = line.data := by
  obtain ⟨hmem, hsorted, hpd⟩ := matchesOf_facts line
  obtain ⟨hchain, -⟩ := matchesOf_chain line
  have := emit_reassemble line.data (matchesOf line) 0
    (fun m hm => ⟨(hmem m hm).1, (hmem m hm).2.2.1⟩) hchain (fun m _ => Nat.zero_le _)
  simpa [partsOfLine] using this

/-- C4 (confirmed): on the spec's example exactly one markdown link span and
one independent raw link span are produced; in general the retained matches
are in strictly ascending start order, and every retained match is either a
markdown match (kept whole) or a raw match that overlaps no markdown match
(raw matches overlapping a markdown match are dropped whole). -/
theorem c4_thm :
    (formatTextWithLinks "See [docs](https://x.com/a) or https://x.com/a" =
      [Span.text "See ", Span.link "docs" "https://x.com/a", Span.brk,
       Span.text " or ", Span.link "https://x.com/a" "https://x.com/a", Span.brk]) ∧
    (∀ line : String, List.Chain' (fun a b => a.index < b.index) (matchesOf line)) ∧
    (∀ (line : String) (x : LMatch), x ∈ matchesOf line →
      x ∈ mdMatches line ∨
        (x ∈ rawMatches line ∧ ∀ m ∈ mdMatches line, jsOverlapB x m = false)) :=
  ⟨by decide, fun line => (matchesOf_chain line).2,
   fun line x hx => ((matchesOf_facts line).1 x hx).2.2.2⟩

/-- C4 witness: the bare-URL match of the example is retained and overlaps no
markdown match. -/
theorem c4_witness :
    (⟨31, 15, false, "", "https://x.com/a"⟩ : LMatch) ∈
      mdMatches "See [docs](https://x.com/a) or https://x.com/a" ∨
    ((⟨31, 15, false, "", "https://x.com/a"⟩ : LMatch) ∈
      rawMatches "See [docs](https://x.com/a) or https://x.com/a" ∧
     ∀ m ∈ mdMatches "See [docs](https://x.com/a) or https://x.com/a",
       jsOverlapB ⟨31, 15, false, "", "https://x.com/a"⟩ m = false) :=
  c4_thm.2.2 "See [docs](https://x.com/a) or https://x.com/a"
    ⟨31, 15, false, "", "https://x.com/a"⟩ (by decide)

/-! ## Character-tracking lemmas through the sanitizer (C7, C10) -/

/-- Characters of the asterisk-run removal come from the input or are the
kept single asterisk. -/
theorem csAux_subset : ∀ (l : List Char) (p : Nat) (c : Char),
    c ∈ csAux l p → c ∈ l ∨ c = '*' := by
  intro l
  induction l with
  | nil =>
    intro p c hc
    simp only [csAux] at hc
    by_cases hp : (p == 1) = true
    · rw [if_pos hp] at hc; simp at hc; exact Or.inr hc
    · rw [if_neg hp] at hc; simp at hc
  | cons a rest ih =>
    intro p c hc
    simp only [csAux] at hc
    by_cases ha : (a == '*') = true
    · rw [if_pos ha] at hc
      rcases ih (p + 1) c hc with h | h
      · exact Or.inl (List.mem_cons_of_mem _ h)
      · exact Or.inr h
    · rw [if_neg ha] at hc
      rcases List.mem_append.mp hc with h | h
      · by_cases hp : (p == 1) = true
        · rw [if_pos hp] at h; simp at h; exact Or.inr h
        · rw [if_neg hp] at h; simp at h
      · rcases List.mem_cons.mp h with h | h
        · exact Or.inl (h ▸ List.mem_cons_self _ _)
        · rcases ih 0 c h with h' | h'
          · exact Or.inl (List.mem_cons_of_mem _ h')
          · exact Or.inr h'

/-- Characters of the whitespace collapse come from the input, are the
inserted space, or are the pending run character. -/
theorem cwAux_subset : ∀ (l : List Char) (st : Option (Char × Bool)) (c : Char),
    c ∈ cwAux l st →
    c ∈ l ∨ c = ' ' ∨ ∃ w more, st = some (w, more) ∧ c = w := by
  intro l
  induction l with
  | nil =>
    intro st c hc
    cases st with
    | none => simp [cwAux] at hc
    | some p =>
      obtain ⟨w, more⟩ := p
      simp only [cwAux] at hc
      by_cases hm : more = true
      · rw [if_pos hm] at hc; simp at hc; exact Or.inr (Or.inl hc)
      · rw [if_neg hm] at hc; simp at hc
        exact Or.inr (Or.inr ⟨w, more, rfl, hc⟩)
  | cons a rest ih =>
    intro st c hc
    cases st with
    | none =>
      simp only [cwAux] at hc
      by_cases hws : isJsWS a = true
      · rw [if_pos hws] at hc
        rcases ih _ c hc with h | h | ⟨w, more, hst, hcw⟩
        · exact Or.inl (List.mem_cons_of_mem _ h)
        · exact Or.inr (Or.inl h)
        · injection hst with hst
          injection hst with h1 h2
          exact Or.inl (by rw [hcw, ← h1]; exact List.mem_cons_self _ _)
      · rw [if_neg hws] at hc
        rcases List.mem_cons.mp hc with h | h
        · exact Or.inl (h ▸ List.mem_cons_self _ _)
        · rcases ih none c h with h' | h' | ⟨w, more, hst, _⟩
          · exact Or.inl (List.mem_cons_of_mem _ h')
          · exact Or.inr (Or.inl h')
          · exact absurd hst (by simp)
    | some p =>
      obtain ⟨w, more⟩ := p
      simp only [cwAux] at hc
      by_cases hws : isJsWS a = true
      · rw [if_pos hws] at hc
        rcases ih _ c hc with h | h | ⟨w', more', hst, hcw⟩
        · exact Or.inl (List.mem_cons_of_mem _ h)
        · exact Or.inr (Or.inl h)
        · injection hst with hst
          injection hst with h1 h2
          exact Or.inr (Or.inr ⟨w, more, rfl, by rw [hcw, ← h1]⟩)
      · rw [if_neg hws] at hc
        rcases List.mem_append.mp hc with h | h
        · by_cases hm : more = true
          · rw [if_pos hm] at h; simp at h; exact Or.inr (Or.inl h)
          · rw [if_neg hm] at h; simp at h
            exact Or.inr (Or.inr ⟨w, more, rfl, h⟩)
        · rcases List.mem_cons.mp h with h | h
          · exact Or.inl (h ▸ List.mem_cons_self _ _)
          · rcases ih none c h with h' | h' | ⟨w', more', hst, _⟩
            · exact Or.inl (List.mem_cons_of_mem _ h')
            · exact Or.inr (Or.inl h')
            · exact absurd hst (by simp)

/-- `jsTrim` only removes characters. -/
theorem jsTrim_subset {l : List Char} {c : Char} (hc : c ∈ jsTrim l) : c ∈ l := by
  unfold jsTrim dropTrail at hc
  have h1 : c ∈ (l.dropWhile isJsWS).reverse :=
    List.Sublist.mem (List.mem_reverse.mp hc) (List.dropWhile_sublist _)
  have h2 : c ∈ l.dropWhile isJsWS := List.mem_reverse.mp h1
  exact List.Sublist.mem h2 (List.dropWhile_sublist _)

/-- The letters collected by `reps` come from the scanned suffix. -/
theorem reps_subset : ∀ (fuel : Nat) (l : List Char), ∀ c ∈ (reps fuel l).2.2, c ∈ l := by
  intro fuel
  induction fuel with
  | zero => intro l c hc; simp [reps] at hc
  | succ n ih =>
    intro l c hc
    cases l with
    | nil => simp [reps] at hc
    | cons a rest =>
      simp only [reps] at hc
      by_cases hl : isAsciiLetter a = true
      · simp only [hl, if_true] at hc
        by_cases he : rest.isEmpty = true
        · simp only [he, if_true] at hc
          have : c = a := by simpa using hc
          exact List.mem_cons.mpr (Or.inl this)
        · simp only [he, if_false] at hc
          by_cases hw : (rest.takeWhile isRunWS).isEmpty = true
          · simp only [hw, if_true] at hc
            exact absurd hc (by simp)
          · simp only [hw, if_false] at hc
            rcases List.mem_cons.mp hc with h | h
            · exact List.mem_cons.mpr (Or.inl h)
            · exact List.mem_cons.mpr (Or.inr (List.drop_subset _ _ (ih _ c h)))
      · simp only [hl, if_false] at hc
        exact absurd hc (by simp)

/-- The output characters of the letter-spacing scan come from the input. -/
theorem letterScan_subset : ∀ (fuel : Nat) (l : List Char) (b : Bool),
    ∀ c ∈ letterScan fuel l b, c ∈ l := by
  intro fuel
  induction fuel with
  | zero => intro l b c hc; simp [letterScan] at hc
  | succ n ih =>
    intro l b c hc
    cases l with
    | nil => simp [letterScan] at hc
    | cons a rest =>
      simp only [letterScan] at hc
      by_cases hcond : (isAsciiLetter a && !b) = true
      · simp only [hcond, if_true] at hc
        by_cases h3 : 3 ≤ (reps ((a :: rest).length + 1) (a :: rest)).1
        · simp only [if_pos h3] at hc
          rcases List.mem_append.mp hc with h | h
          · exact reps_subset _ _ c h
          · exact List.drop_subset _ _ (ih _ _ c h)
        · simp only [if_neg h3] at hc
          rcases List.mem_cons.mp hc with h | h
          · exact h ▸ List.mem_cons_self _ _
          · exact List.mem_cons_of_mem _ (ih _ _ c h)
      · simp only [hcond, if_false] at hc
        rcases List.mem_cons.mp hc with h | h
        · exact h ▸ List.mem_cons_self _ _
        · exact List.mem_cons_of_mem _ (ih _ _ c h)

/-- Characters of the `split('\n')` segments come from the input. -/
theorem splitNL_subset : ∀ (l : List Char), ∀ seg ∈ splitNL l, ∀ c ∈ seg, c ∈ l := by
  intro l
  induction l with
  | nil =>
    intro seg hseg c hc
    simp only [splitNL, List.mem_singleton] at hseg
    subst hseg; simp at hc
  | cons a rest ih =>
    intro seg hseg c hc
    simp only [splitNL] at hseg
    by_cases ha : (a == '\n') = true
    · rw [if_pos ha] at hseg
      rcases List.mem_cons.mp hseg with h | h
      · subst h; simp at hc
      · exact List.mem_cons_of_mem _ (ih seg h c hc)
    · rw [if_neg ha] at hseg
      cases hs : splitNL rest with
      | nil =>
        rw [hs] at hseg
        simp only [consHead, List.mem_singleton] at hseg
        subst hseg
        have : c = a := by simpa using hc
        exact List.mem_cons.mpr (Or.inl this)
      | cons h0 t0 =>
        rw [hs] at hseg
        simp only [consHead] at hseg
        rcases List.mem_cons.mp hseg with h | h
        · subst h
          rcases List.mem_cons.mp hc with h' | h'
          · exact List.mem_cons.mpr (Or.inl h')
          · exact List.mem_cons_of_mem _ (ih h0 (hs ▸ List.mem_cons_self _ _) c h')
        · exact List.mem_cons_of_mem _ (ih seg (hs ▸ List.mem_cons_of_mem _ h) c hc)

/-- Decomposition of a successful `\s+`-plus-rest parse. -/
theorem needWs_decomp {r rest : List Char} (h : needWs r = some rest) :
    ∃ w, r = w ++ rest ∧ w ≠ [] ∧ (∀ c ∈ w, isJsWS c = true) ∧
      (∀ c ∈ rest, isLineTerm c = false) ∧
      (∀ c, rest.head? = some c → isJsWS c = false) := by
  unfold needWs at h
  split at h
  · exact absurd h (by simp)
  case isFalse hne =>
    split at h
    · exact absurd h (by simp)
    case isFalse hterm =>
      injection h with h
      subst h
      refine ⟨r.takeWhile isJsWS, (List.takeWhile_append_dropWhile _ _).symm,
        by simpa using hne, fun c hc => List.mem_takeWhile_imp hc, ?_, ?_⟩
      · intro c hc
        by_contra hl
        exact hterm (List.any_eq_true.mpr ⟨c, hc, Bool.not_eq_false _ |>.mp hl⟩)
      · intro c hc
        exact head_dropWhile hc

/-- Decomposition of a successful list-marker parse: the line is leading
whitespace plus marker, a nonempty whitespace run, and the captured rest,
which contains no line terminator. -/
theorem markerMatch_decomp {l rest : List Char} (h : markerMatch l = some rest) :
    ∃ pre w, l = pre ++ w ++ rest ∧ w ≠ [] ∧ (∀ c ∈ w, isJsWS c = true) ∧
      (∀ c ∈ rest, isLineTerm c = false) ∧
      (∀ c, rest.head? = some c → isJsWS c = false) := by
  unfold markerMatch at h
  split at h
  · exact absurd h (by simp)
  case h_2 c0 rest1 heq =>
    have hl : l = l.takeWhile isJsWS ++ c0 :: rest1 := by
      conv_lhs => rw [← List.takeWhile_append_dropWhile isJsWS l]
      rw [heq]
    split at h
    case isTrue hmk =>
      obtain ⟨w, hw1, hw2, hw3, hw4, hw5⟩ := needWs_decomp h
      refine ⟨l.takeWhile isJsWS ++ [c0], w, ?_, hw2, hw3, hw4, hw5⟩
      generalize htw : l.takeWhile isJsWS = tw at hl ⊢
      rw [hl, hw1]
      simp
    case isFalse hmk =>
      split at h
      case isFalse => exact absurd h (by simp)
      case isTrue hdig =>
        split at h
        case h_2 => exact absurd h (by simp)
        case h_1 x r2 heq2 =>
          split at h
          case isFalse => exact absurd h (by simp)
          case isTrue hx =>
            obtain ⟨w, hw1, hw2, hw3, hw4, hw5⟩ := needWs_decomp h
            have hds : c0 :: rest1 =
                (c0 :: rest1).takeWhile Char.isDigit ++ x :: r2 := by
              conv_lhs => rw [takeWhile_decomp Char.isDigit (c0 :: rest1)]
              rw [heq2]
            refine ⟨l.takeWhile isJsWS ++ (c0 :: rest1).takeWhile Char.isDigit ++ [x], w,
              ?_, hw2, hw3, hw4, hw5⟩
            generalize htw : l.takeWhile isJsWS = tw at hl ⊢
            generalize hgds : (c0 :: rest1).takeWhile Char.isDigit = ds at hds ⊢
            rw [hl, hds, hw1]
            simp

/-- The characters of a stripped stray-bullet line come from the line. -/
theorem dropOneWS_subset {r : List Char} {c : Char} (hc : c ∈ dropOneWS r) : c ∈ r := by
  cases r with
  | nil => simp [dropOneWS] at hc
  | cons w t =>
    simp only [dropOneWS] at hc
    by_cases hw : isJsWS w = true
    · rw [if_pos hw] at hc; exact List.mem_cons_of_mem _ hc
    · rw [if_neg hw] at hc; exact hc

theorem stripLeadBullet_subset {l : List Char} {c : Char}
    (hc : c ∈ stripLeadBullet l) : c ∈ l := by
  unfold stripLeadBullet at hc
  split at hc
  case h_2 => exact jsTrim_subset hc
  case h_1 c0 rest heq =>
    have hsub : ∀ x ∈ c0 :: rest, x ∈ l := by
      intro x hx
      exact List.Sublist.mem (heq ▸ hx) (List.dropWhile_sublist _)
    split at hc
    · exact hsub c (List.mem_cons_of_mem _ (dropOneWS_subset (jsTrim_subset hc)))
    · exact jsTrim_subset hc

/-- Characters of a normalised line come from the line, or are the inserted
bullet or space. -/
theorem normLine_subset {l : List Char} {c : Char} (hc : c ∈ normLine l) :
    c ∈ l ∨ c = '•' ∨ c = ' ' := by
  unfold normLine at hc
  split at hc
  case h_1 rest hm =>
    obtain ⟨pre, w, hdec, -, -, -, -⟩ := markerMatch_decomp hm
    rcases List.mem_cons.mp hc with h | h
    · exact Or.inr (Or.inl h)
    rcases List.mem_cons.mp h with h' | h'
    · exact Or.inr (Or.inr h')
    · refine Or.inl ?_
      rw [hdec]
      exact List.mem_append_right _ (jsTrim_subset h')
  case h_2 =>
    split at hc
    · exact Or.inl (List.mem_filter.mp hc).1
    · exact Or.inl (stripLeadBullet_subset hc)

/-- Characters of the joined output come from some line or are the inserted
newline. -/
theorem joinNL_subset : ∀ (ls : List (List Char)) (c : Char),
    c ∈ joinNL ls → (∃ l ∈ ls, c ∈ l) ∨ c = '\n' := by
  intro ls
  induction ls with
  | nil => intro c hc; simp [joinNL] at hc
  | cons l rest ih =>
    intro c hc
    cases rest with
    | nil =>
      simp only [joinNL] at hc
      exact Or.inl ⟨l, List.mem_cons_self _ _, hc⟩
    | cons l2 rest2 =>
      simp only [joinNL] at hc
      rcases List.mem_append.mp hc with h | h
      · exact Or.inl ⟨l, List.mem_cons_self _ _, h⟩
      · rcases List.mem_cons.mp h with h' | h'
        · exact Or.inr h'
        · rcases ih c h' with ⟨l', hl', hcl'⟩ | h''
          · exact Or.inl ⟨l', List.mem_cons_of_mem _ hl', hcl'⟩
          · exact Or.inr h''

/-- Every character surviving the character-level sanitizer stages is neither
a carriage return nor a zero-width/byte-order-mark character. -/
theorem sanStage_chars (x : String) :
    ∀ c ∈ sanStage x,
      c ≠ '\r' ∧ c ≠ '\u200B' ∧ c ≠ '\u200C' ∧ c ≠ '\u200D' ∧ c ≠ '\uFEFF' := by
  intro c hc
  simp only [sanStage] at hc
  have h6 := letterScan_subset _ _ _ c hc
  unfold collapseWs at h6
  rcases cwAux_subset _ _ c h6 with h5 | hsp | ⟨w, more, hst, -⟩
  · obtain ⟨h4, hzw⟩ := List.mem_filter.mp h5
    have hzw' : c ≠ '\u200B' ∧ c ≠ '\u200C' ∧ c ≠ '\u200D' ∧ c ≠ '\uFEFF' := by
      simpa [not_or, and_assoc] using hzw
    have h3 := jsTrim_subset h4
    obtain ⟨h2, -⟩ := List.mem_filter.mp h3
    unfold collapseStars at h2
    rcases csAux_subset _ _ c h2 with h1 | hstar
    · obtain ⟨-, hcr⟩ := List.mem_filter.mp h1
      refine ⟨?_, hzw'.1, hzw'.2.1, hzw'.2.2.1, hzw'.2.2.2⟩
      simpa using hcr
    · subst hstar; exact ⟨by decide, by decide, by decide, by decide, by decide⟩
  · subst hsp; exact ⟨by decide, by decide, by decide, by decide, by decide⟩
  · exact absurd hst (by simp)

/-- Shared form of the zero-width/carriage-return guarantee: the output of
`sanitizeReply` never contains a carriage return or any of the zero-width
characters U+200B/U+200C/U+200D/U+FEFF. -/
theorem sanitizeReply_chars (x : String) :
    ∀ c ∈ (sanitizeReply x).data,
      c ≠ '\r' ∧ c ≠ '\u200B' ∧ c ≠ '\u200C' ∧ c ≠ '\u200D' ∧ c ≠ '\uFEFF' := by
  intro c hc
  by_cases hx : x = ""
  · subst hx; simp [sanitizeReply] at hc
  · rw [sanitizeReply, if_neg hx] at hc
    have hc' : c ∈ joinNL (sanLines x) := hc
    rcases joinNL_subset _ c hc' with ⟨l, hl, hcl⟩ | hnl
    · have hstep : ∃ l₀ ∈ ((splitNL (sanStage x)).map jsTrim).filter
          (fun l => !l.isEmpty), l = normLine l₀ := by
        unfold sanLines at hl
        obtain ⟨hl', -⟩ := List.mem_filter.mp hl
        obtain ⟨l₀, hl₀, rfl⟩ := List.mem_map.mp hl'
        exact ⟨l₀, hl₀, rfl⟩
      obtain ⟨l₀, hl₀, rfl⟩ := hstep
      rcases normLine_subset hcl with h | h | h
      · obtain ⟨hl₁, -⟩ := List.mem_filter.mp hl₀
        obtain ⟨seg, hseg, rfl⟩ := List.mem_map.mp hl₁
        exact sanStage_chars x c (splitNL_subset _ seg hseg c (jsTrim_subset h))
      · subst h; exact ⟨by decide, by decide, by decide, by decide, by decide⟩
      · subst h; exact ⟨by decide, by decide, by decide, by decide, by decide⟩
    · subst hnl; exact ⟨by decide, by decide, by decide, by decide, by decide⟩

/-- C7 (amended): the output of `sanitizeReply` never contains a carriage
return or any of the zero-width characters U+200B/U+200C/U+200D/U+FEFF.
(Other control characters, such as an interior TAB, may survive: see the
counterexample.) -/
theorem c7_amended (x : String) :
    ∀ c ∈ (sanitizeReply x).data,
      c ≠ '\r' ∧ c ≠ '\u200B' ∧ c ≠ '\u200C' ∧ c ≠ '\u200D' ∧ c ≠ '\uFEFF' :=
  sanitizeReply_chars x

/-- C7 witness: the amended statement instantiated at a concrete character of
a concrete sanitized output. -/
theorem c7_witness :
    'a' ≠ '\r' ∧ 'a' ≠ '\u200B' ∧ 'a' ≠ '\u200C' ∧ 'a' ≠ '\u200D' ∧ 'a' ≠ '\uFEFF' :=
  c7_amended "ab" 'a' (by decide)

/-! ## Parser lemmas for single plain lines (C6) and line shape (C10) -/

/-- Splitting a newline-free list on newlines yields the list itself. -/
theorem splitNL_noNL {l : List Char} (h : ∀ c ∈ l, c ≠ '\n') : splitNL l = [l] := by
  induction l with
  | nil => rfl
  | cons a rest ih =>
    have ha : ¬(a == '\n') = true := by
      simpa using h a (List.mem_cons_self _ _)
    simp only [splitNL, if_neg ha]
    rw [ih (fun c hc => h c (List.mem_cons_of_mem _ hc))]
    rfl

/-- A newline-free left part does not affect the double-newline test. -/
theorem hasDoubleNL_append {a : List Char} (r : List Char) (h : ∀ c ∈ a, c ≠ '\n') :
    hasDoubleNL (a ++ r) = hasDoubleNL r := by
  induction a with
  | nil => rfl
  | cons c a' ih =>
    have hc : ¬(c == '\n') = true := by simpa using h c (List.mem_cons_self _ _)
    have ih' := ih (fun x hx => h x (List.mem_cons_of_mem _ hx))
    cases haa : a' ++ r with
    | nil =>
      obtain ⟨ha', hr⟩ := List.append_eq_nil.mp haa
      subst ha'
      subst hr
      simp [hasDoubleNL]
    | cons b t =>
      show hasDoubleNL (c :: (a' ++ r)) = hasDoubleNL r
      rw [haa]
      show ((c == '\n' && b == '\n') || hasDoubleNL (b :: t)) = hasDoubleNL r
      rw [← haa, ih']
      simp [hc]

/-- A newline-free list has no double newline. -/
theorem hasDoubleNL_of_noNL {l : List Char} (h : ∀ c ∈ l, c ≠ '\n') :
    hasDoubleNL l = false := by
  have h2 := hasDoubleNL_append (a := l) [] h
  simpa using h2

/-- The tail of a double-newline-free list is double-newline-free. -/
theorem hasDoubleNL_tail {c : Char} {rest : List Char}
    (h : hasDoubleNL (c :: rest) = false) : hasDoubleNL rest = false := by
  cases rest with
  | nil => rfl
  | cons b t =>
    have h' : ((c == '\n' && b == '\n') || hasDoubleNL (b :: t)) = false := h
    simp only [Bool.or_eq_false_iff] at h'
    exact h'.2

/-- The paragraph-split state machine does not cut a double-newline-free
input: from pending count 0 it returns a single piece, and from pending
count 1 (the pending newline joined back) provided the next character is not
a newline. -/
theorem s2Aux_noDbl : ∀ (l cur : List Char), hasDoubleNL l = false →
    s2Aux l cur 0 = [cur.reverse ++ l] ∧
    (l.head? ≠ some '\n' → s2Aux l cur 1 = [cur.reverse ++ '\n' :: l]) := by
  intro l
  induction l with
  | nil =>
    intro cur h
    constructor
    · simp [s2Aux]
    · intro _
      show s2Aux [] cur 1 = _
      simp [s2Aux, List.reverse_append]
  | cons c rest ih =>
    intro cur h
    have htail : hasDoubleNL rest = false := hasDoubleNL_tail h
    constructor
    · by_cases hc : (c == '\n') = true
      · have hceq : c = '\n' := by simpa using hc
        show s2Aux (c :: rest) cur 0 = _
        simp only [s2Aux, if_pos hc]
        have hrh : rest.head? ≠ some '\n' := by
          cases rest with
          | nil => simp
          | cons b t =>
            intro hb
            injection hb with hb
            subst hb
            rw [hceq] at h
            have h' : ((('\n' : Char) == '\n' && ('\n' : Char) == '\n') ||
                hasDoubleNL ('\n' :: t)) = false := h
            simp at h'
        rw [(ih cur htail).2 hrh, hceq]
      · show s2Aux (c :: rest) cur 0 = _
        simp only [s2Aux, if_neg hc]
        have h0 : ¬ 2 ≤ 0 := by omega
        rw [if_neg h0]
        have hrec := (ih (c :: (List.replicate 0 '\n' ++ cur)) htail).1
        simp only [List.replicate, List.nil_append] at hrec ⊢
        rw [hrec]
        simp
    · intro hhead
      have hc : ¬(c == '\n') = true := by
        intro hc
        exact hhead (by simpa using hc)
      show s2Aux (c :: rest) cur 1 = _
      simp only [s2Aux, if_neg hc]
      have h1 : ¬ 2 ≤ 1 := by omega
      rw [if_neg h1]
      have hrec := (ih (c :: (List.replicate 1 '\n' ++ cur)) htail).1
      rw [hrec]
      simp [List.replicate]

/-- Splitting a double-newline-free text into paragraph groups yields a
single group: the text itself. -/
theorem split2NL_noDbl {l : List Char} (h : hasDoubleNL l = false) :
    split2NL l = [l] := by
  have h1 := (s2Aux_noDbl l [] h).1
  simpa [split2NL] using h1

/-- A line with no retained matches is rendered as a single text span. -/
theorem formatTextWithLinks_nomatch {line : String} (hm : matchesOf line = [])
    (hne : line ≠ "") : formatTextWithLinks line = [Span.text line] := by
  obtain ⟨d⟩ := line
  have hd : d ≠ [] := fun h => hne (by rw [h])
  unfold formatTextWithLinks partsOfLine
  rw [hm]
  simp only [emitParts]
  have hlen : 0 < (String.mk d).data.length := by
    cases d with
    | nil => exact absurd rfl hd
    | cons a t => simp
  rw [if_pos hlen]
  simp [partToSpan]

/-- One trimmed, nonempty, non-list line becomes exactly one paragraph
block. -/
theorem procLines_single_plain {line : List Char} (ht : jsTrim line = line)
    (hne : (String.mk line) ≠ "")
    (hu : isUnorderedListItem (String.mk line) = false)
    (ho : isOrderedListItem (String.mk line) = false) :
    procLines [line] [] [] none =
      [Block.para (formatTextWithLinks (String.mk line))] := by
  simp only [procLines, ht]
  have hcond : ¬(isUnorderedListItem (String.mk line) ||
      isOrderedListItem (String.mk line)) = true := by
    simp [hu, ho]
  rw [if_neg hcond]
  have hne' : (String.mk line != "") = true := by simpa using hne
  simp [procLines, hne']

/-- C6 (amended): each plain nonempty line is its own Paragraph block; in
particular parsing a single-line text with no `\n`/`\r`, already trimmed,
classified as no list item and containing no link matches yields exactly one
Paragraph block whose span sequence is one Text span equal to the input. -/
theorem c6_amended (line : String) (hne : line ≠ "")
    (hnl : ∀ c ∈ line.data, c ≠ '\n' ∧ c ≠ '\r')
    (ht : jsTrim line.data = line.data)
    (hu : isUnorderedListItem line = false) (ho : isOrderedListItem line = false)
    (hm : matchesOf line = []) :
    renderMessageText line = [[Block.para [Span.text line]]] := by
  obtain ⟨d⟩ := line
  have hd : d ≠ [] := fun h => hne (by rw [h])
  rw [renderMessageText, if_neg hne]
  have hfil : d.filter (fun c => c != '\r') = d :=
    List.filter_eq_self.mpr (fun c hc => by simpa using (hnl c hc).2)
  have hsplit : split2NL d = [d] :=
    split2NL_noDbl (hasDoubleNL_of_noNL (fun c hc => (hnl c hc).1))
  show ((((split2NL ((String.mk d).data.filter (fun c => c != '\r'))).map jsTrim).filter
      (fun l => !l.isEmpty)).map (fun g => procLines (splitNL g) [] [] none)) = _
  rw [show (String.mk d).data = d from rfl, hfil, hsplit]
  have htd : jsTrim d = d := ht
  simp only [List.map_cons, List.map_nil, htd]
  have hdne : (!d.isEmpty) = true := by
    cases d with
    | nil => exact absurd rfl hd
    | cons a t => rfl
  have hfilter : List.filter (fun l => !l.isEmpty) [d] = [d] := by
    simp only [List.filter_cons, hdne, if_true, List.filter_nil]
  rw [hfilter]
  simp only [List.map_cons, List.map_nil]
  rw [splitNL_noNL (fun c hc => (hnl c hc).1)]
  rw [procLines_single_plain htd hne hu ho]
  rw [formatTextWithLinks_nomatch hm hne]

/-- C6 witness: the amended statement at a concrete single-line input. -/
theorem c6_witness :
    renderMessageText "hello there" = [[Block.para [Span.text "hello there"]]] :=
  c6_amended "hello there" (by decide) (by decide) (by decide) (by decide)
    (by decide) (by decide)

/-- A character reported by `getLast?` is a member of the list. -/
theorem getLast?_mem {l : List Char} {c : Char} (h : l.getLast? = some c) :
    c ∈ l := by
  have hh : l.reverse.head? = some c := by
    rw [List.head?_reverse]
    exact h
  exact List.mem_reverse.mp (List.mem_of_mem_head? (Option.mem_def.mpr hh))

/-- When the right part of an append is nonempty, its last element is the
last element of the whole. -/
theorem getLast?_append_right {a b : List Char} (hb : b ≠ []) :
    (a ++ b).getLast? = b.getLast? := by
  obtain ⟨c, hc⟩ := Option.isSome_iff_exists.mp (List.getLast?_isSome.mpr hb)
  rw [List.getLast?_append, hc]
  rfl

/-- The first character of a `jsTrim` result is never JS whitespace. -/
theorem jsTrim_head {l : List Char} {c : Char} (h : (jsTrim l).head? = some c) :
    isJsWS c = false := by
  simp only [jsTrim, dropTrail] at h
  have h2 := congrArg List.reverse
    (List.takeWhile_append_dropWhile isJsWS (l.dropWhile isJsWS).reverse)
  simp only [List.reverse_append, List.reverse_reverse] at h2
  have hor : (l.dropWhile isJsWS).head? = some c := by
    rw [← h2, List.head?_append, h]
    rfl
  exact head_dropWhile hor

/-- The last character of a `jsTrim` result is never JS whitespace. -/
theorem jsTrim_last {l : List Char} {c : Char} (h : (jsTrim l).getLast? = some c) :
    isJsWS c = false := by
  simp only [jsTrim, dropTrail] at h
  rw [List.getLast?_reverse] at h
  exact head_dropWhile h

/-- `jsTrim` is the identity on a list whose first and last characters are
not JS whitespace. -/
theorem jsTrim_eq_self {l : List Char}
    (hh : ∀ c, l.head? = some c → isJsWS c = false)
    (hl : ∀ c, l.getLast? = some c → isJsWS c = false) : jsTrim l = l := by
  simp only [jsTrim, dropTrail]
  rw [dropWhile_eq_self_of_head _ _ hh]
  have h2 : l.reverse.dropWhile isJsWS = l.reverse :=
    dropWhile_eq_self_of_head _ _
      (fun c hc => hl c (by rwa [List.head?_reverse] at hc))
  rw [h2, List.reverse_reverse]

/-- No segment produced by `splitNL` contains a newline. -/
theorem splitNL_seg_noNL : ∀ (l : List Char), ∀ seg ∈ splitNL l,
    ∀ c ∈ seg, c ≠ '\n' := by
  intro l
  induction l with
  | nil =>
    intro seg hseg c hc
    simp only [splitNL, List.mem_singleton] at hseg
    subst hseg
    simp at hc
  | cons a rest ih =>
    intro seg hseg c hc
    by_cases ha : (a == '\n') = true
    · rw [splitNL, if_pos ha] at hseg
      rcases List.mem_cons.mp hseg with h1 | h2
      · subst h1
        simp at hc
      · exact ih seg h2 c hc
    · rw [splitNL, if_neg ha] at hseg
      cases hrest : splitNL rest with
      | nil =>
        rw [hrest] at hseg
        simp only [consHead, List.mem_singleton] at hseg
        subst hseg
        have hca : c = a := List.mem_singleton.mp hc
        subst hca
        simpa using ha
      | cons h0 t0 =>
        rw [hrest] at hseg
        simp only [consHead] at hseg
        rcases List.mem_cons.mp hseg with h1 | h2
        · subst h1
          rcases List.mem_cons.mp hc with hca | hc2
          · subst hca
            simpa using ha
          · exact ih h0 (by rw [hrest]; exact List.mem_cons_self _ _) c hc2
        · exact ih seg (by rw [hrest]; exact List.mem_cons_of_mem _ h2) c hc

/-- When a line of whose last character is not whitespace matches the bullet
pattern, the captured content is nonempty and its first and last characters
are not whitespace. -/
theorem markerMatch_rest_shape {l rest : List Char} (hm : markerMatch l = some rest)
    (hlast : ∀ c, l.getLast? = some c → isJsWS c = false) :
    rest ≠ [] ∧ (∀ c, rest.head? = some c → isJsWS c = false) ∧
      (∀ c, rest.getLast? = some c → isJsWS c = false) := by
  obtain ⟨pre, w, hdec, hwne, hwws, -, hwhead⟩ := markerMatch_decomp hm
  have hrne : rest ≠ [] := by
    intro hr
    subst hr
    rw [List.append_nil] at hdec
    obtain ⟨wc, hwc⟩ := Option.isSome_iff_exists.mp (List.getLast?_isSome.mpr hwne)
    have hlw : l.getLast? = some wc := by
      rw [hdec, getLast?_append_right hwne, hwc]
    have h1 := hlast wc hlw
    have h2 := hwws wc (getLast?_mem hwc)
    rw [h1] at h2
    exact Bool.false_ne_true h2
  refine ⟨hrne, hwhead, ?_⟩
  intro c hc
  apply hlast
  rw [hdec, getLast?_append_right hrne]
  exact hc

/-- `stripLeadBullet` always ends in a `jsTrim`, so its first and last
characters are never whitespace. -/
theorem stripLeadBullet_shape (l : List Char) :
    (∀ c, (stripLeadBullet l).head? = some c → isJsWS c = false) ∧
      (∀ c, (stripLeadBullet l).getLast? = some c → isJsWS c = false) := by
  cases hd : l.dropWhile isJsWS with
  | nil =>
    simp only [stripLeadBullet, hd]
    exact ⟨fun c h => jsTrim_head h, fun c h => jsTrim_last h⟩
  | cons c0 r =>
    simp only [stripLeadBullet, hd]
    by_cases hb : (c0 == '*' || c0 == '•') = true
    · rw [if_pos hb]
      exact ⟨fun c h => jsTrim_head h, fun c h => jsTrim_last h⟩
    · rw [if_neg hb]
      exact ⟨fun c h => jsTrim_head h, fun c h => jsTrim_last h⟩

/-- Shape of each retained sanitizer line: nonempty, newline-free, and with
non-whitespace first and last characters. -/
theorem sanLines_shape (x : String) : ∀ l ∈ sanLines x,
    l ≠ [] ∧ (∀ c ∈ l, c ≠ '\n') ∧
      (∀ c, l.head? = some c → isJsWS c = false) ∧
      (∀ c, l.getLast? = some c → isJsWS c = false) := by
  intro l hl
  unfold sanLines at hl
  obtain ⟨hl1, hp1⟩ := List.mem_filter.mp hl
  obtain ⟨l₀, hl₀, rfl⟩ := List.mem_map.mp hl1
  obtain ⟨hl2, hp0⟩ := List.mem_filter.mp hl₀
  obtain ⟨seg, hseg, rfl⟩ := List.mem_map.mp hl2
  have hsegNL : ∀ c ∈ seg, c ≠ '\n' := splitNL_seg_noNL _ seg hseg
  have htNL : ∀ c ∈ jsTrim seg, c ≠ '\n' := fun c hc => hsegNL c (jsTrim_subset hc)
  have htlast : ∀ c, (jsTrim seg).getLast? = some c → isJsWS c = false :=
    fun c h => jsTrim_last h
  have hnne : normLine (jsTrim seg) ≠ [] := by
    intro hx
    rw [hx] at hp1
    simp at hp1
  refine ⟨hnne, ?_, ?_⟩
  · intro c hc
    rcases normLine_subset hc with h1 | h2 | h3
    · exact htNL c h1
    · subst h2
      decide
    · subst h3
      decide
  · cases hm : markerMatch (jsTrim seg) with
    | some rest =>
      obtain ⟨hrne, hrh, hrl⟩ := markerMatch_rest_shape hm htlast
      have hjt : jsTrim rest = rest := jsTrim_eq_self hrh hrl
      simp only [normLine, hm]
      refine ⟨?_, ?_⟩
      · intro c hc
        simp only [List.head?_cons, Option.some.injEq] at hc
        subst hc
        decide
      · intro c hc
        rw [hjt] at hc
        have he : ('•' :: ' ' :: rest : List Char) = ['•', ' '] ++ rest := rfl
        rw [he, getLast?_append_right hrne] at hc
        exact hrl c hc
    | none =>
      simp only [normLine, hm]
      by_cases hlr : isLetterRun2 (jsTrim seg) = true
      · rw [if_pos hlr]
        refine ⟨?_, ?_⟩
        · intro c hc
          have hmem : c ∈ (jsTrim seg).filter (fun c => !isJsWS c) :=
            List.mem_of_mem_head? (Option.mem_def.mpr hc)
          have hp := (List.mem_filter.mp hmem).2
          simpa using hp
        · intro c hc
          have hmem : c ∈ (jsTrim seg).filter (fun c => !isJsWS c) := getLast?_mem hc
          have hp := (List.mem_filter.mp hmem).2
          simpa using hp
      · rw [if_neg hlr]
        exact stripLeadBullet_shape (jsTrim seg)

/-- Joining nonempty newline-free lines with single newlines never creates
two consecutive newlines. -/
theorem joinNL_noDbl : ∀ (ls : List (List Char)),
    (∀ l ∈ ls, l ≠ [] ∧ ∀ c ∈ l, c ≠ '\n') →
    hasDoubleNL (joinNL ls) = false := by
  intro ls
  induction ls with
  | nil => intro _; rfl
  | cons l rest ih =>
    intro h
    cases rest with
    | nil =>
      show hasDoubleNL (joinNL [l]) = false
      simp only [joinNL]
      exact hasDoubleNL_of_noNL (h l (List.mem_cons_self _ _)).2
    | cons l2 rest2 =>
      have hl := h l (List.mem_cons_self _ _)
      have hrest : ∀ m ∈ l2 :: rest2, m ≠ [] ∧ ∀ c ∈ m, c ≠ '\n' :=
        fun m hm => h m (List.mem_cons_of_mem _ hm)
      have hl2 := hrest l2 (List.mem_cons_self _ _)
      have hJ : joinNL (l :: l2 :: rest2) = l ++ '\n' :: joinNL (l2 :: rest2) := rfl
      rw [hJ, hasDoubleNL_append _ hl.2]
      obtain ⟨b, t, hbt⟩ := List.exists_cons_of_ne_nil hl2.1
      have hbmem : b ∈ l2 := by
        rw [hbt]
        exact List.mem_cons_self _ _
      have hbn : b ≠ '\n' := hl2.2 b hbmem
      have hshape : ∃ s, joinNL (l2 :: rest2) = b :: s := by
        cases rest2 with
        | nil => exact ⟨t, by simp [joinNL, hbt]⟩
        | cons l3 rest3 =>
          refine ⟨t ++ '\n' :: joinNL (l3 :: rest3), ?_⟩
          show l2 ++ '\n' :: joinNL (l3 :: rest3) =
            b :: (t ++ '\n' :: joinNL (l3 :: rest3))
          rw [hbt]
          rfl
      obtain ⟨s, hs⟩ := hshape
      rw [hs]
      have hind := ih hrest
      rw [hs] at hind
      show ((('\n' : Char) == '\n' && b == '\n') || hasDoubleNL (b :: s)) = false
      have hbb : (b == '\n') = false := by simpa using hbn
      rw [hbb]
      simp only [Bool.and_false, Bool.false_or]
      exact hind

/-- C10: every line of the sanitizer output is nonempty with no leading or
trailing whitespace, the output never contains two consecutive newlines, and
therefore the parser paragraph split (after its own carriage-return removal)
keeps the entire sanitized reply as a single paragraph group. -/
theorem c10_thm (x : String) :
    (∀ l ∈ sanLines x, l ≠ [] ∧
      (∀ c, l.head? = some c → isJsWS c = false) ∧
      (∀ c, l.getLast? = some c → isJsWS c = false)) ∧
    hasDoubleNL (sanitizeReply x).data = false ∧
    split2NL ((sanitizeReply x).data.filter (fun c => c != '\r')) =
      [(sanitizeReply x).data] := by
  have hlines := sanLines_shape x
  have hdbl : hasDoubleNL (sanitizeReply x).data = false := by
    by_cases hx : x = ""
    · subst hx
      decide
    · rw [sanitizeReply, if_neg hx]
      exact joinNL_noDbl _ (fun l hl => ⟨(hlines l hl).1, (hlines l hl).2.1⟩)
  refine ⟨fun l hl => ⟨(hlines l hl).1, (hlines l hl).2.2.1, (hlines l hl).2.2.2⟩,
    hdbl, ?_⟩
  have hfil : (sanitizeReply x).data.filter (fun c => c != '\r') =
      (sanitizeReply x).data := by
    apply List.filter_eq_self.mpr
    intro c hc
    have hcr := (sanitizeReply_chars x c hc).1
    simpa using hcr
  rw [hfil]
  exact split2NL_noDbl hdbl

/-- C10 witness: the theorem instantiated at the input "hi", whose single
sanitized line is "hi", checking its head and last characters concretely. -/
theorem c10_witness :
    (['h', 'i'] : List Char) ≠ [] ∧ isJsWS 'h' = false ∧ isJsWS 'i' = false ∧
    hasDoubleNL (sanitizeReply "hi").data = false ∧
    split2NL ((sanitizeReply "hi").data.filter (fun c => c != '\r')) =
      [(sanitizeReply "hi").data] := by
  obtain ⟨h1, h2, h3⟩ := c10_thm "hi"
  have hl := h1 ['h', 'i'] (by decide)
  exact ⟨hl.1, hl.2.1 'h' (by decide), hl.2.2 'i' (by decide), h2, h3⟩

end RL
